import Mathlib

/-!
# csim.c — a set-associative cache simulator

Shallow embedding of `src/cache simulator/csim.c` and the properties of its
natural-language specification that were checked against it.

Conventions of the embedding

* `mem_addr_t` and `unsigned long long` values are natural numbers; the only
  arithmetic on them that can leave the 64-bit range is `lru += lru_counter`,
  which is reduced modulo `2 ^ 64`.
* The `int` counters `hit_count`, `miss_count`, `eviction_count` are natural
  numbers (the C values agree with them below `2 ^ 31`).
* `valid` is a `char` that only ever holds `0` or `1`; it is a `Bool` here.
* Pointers into a cache set (`cache_line_t *` stored in `cache_valid_subset`
  and `cache_free_subset`) are indices into that set.
* The global variables are gathered in `State`; the command line values
  `s`, `b`, `E` in `Config`.
* An access outside an allocated array is undefined in C; `accessData` returns
  `none` there.
* The array of sets has the `S` sets that `main` computes in an `int`: `2 ^ s`
  for `s ≤ 30` and none from `s = 31` on (`numSets`).
-/

namespace Csim

/-! ## Data model -/

/-- Cache line: `valid`, `tag` and the `lru` marker (csim.c, lines 38-42). -/
structure cache_line_t where
  valid : Bool
  tag : Nat
  lru : Nat
deriving DecidableEq

/-- A cache set is an array of lines (`typedef cache_line_t* cache_set_t`). -/
abbrev cache_set_t := List cache_line_t

/-- The cache is an array of sets (`typedef cache_set_t* cache_t`). -/
abbrev cache_t := List cache_set_t

/-- Globals set from the command line: `s` set index bits, `b` block offset
bits, `E` associativity. -/
structure Config where
  s : Nat
  b : Nat
  E : Nat
deriving DecidableEq

/-- The mutable globals of csim.c: the cache, `set_index_mask` and the three
counters. -/
structure State where
  cache : cache_t
  set_index_mask : Nat
  miss_count : Nat
  hit_count : Nat
  eviction_count : Nat
deriving DecidableEq

/-- The global `lru_counter`; it is initialised to 1 and never assigned. -/
def lru_counter : Nat := 1

/-- Number of values of an `unsigned long long`. -/
def ULL : Nat := 2 ^ 64

/-! ## initCache -/

/-- Position of the highest set bit of `n` (0 for `n = 0`), by halving at most
`fuel` times. -/
def topBit : Nat → Nat → Nat
  | 0, _ => 0
  | fuel + 1, n => if n < 2 then 0 else topBit fuel (n / 2) + 1

/-- The IEEE-754 binary64 value nearest to the natural number `n`, ties to
even: numbers below `2 ^ 53` are exact, larger ones keep their 53 leading bits.
This is the value of a `double` expression whose exact result is `n`
(for `n < 2 ^ 1024`). -/
def roundBinary64 (n : Nat) : Nat :=
  if n < 2 ^ 53 then n
  else
    let e := topBit n n - 52
    let q := n / 2 ^ e
    let r := n % 2 ^ e
    let q1 := if 2 * r < 2 ^ e then q else if 2 ^ e < 2 * r then q + 1
              else if q % 2 = 0 then q else q + 1
    q1 * 2 ^ e

/-- The mask of `initCache`: `(mem_addr_t) (pow(2, s) - 1)`. `pow(2, s)` is the
exact double `2 ^ s`; the subtraction is a double subtraction, so its result is
rounded; the conversion to `mem_addr_t` is exact for `s ≤ 63`. -/
def initMask (s : Nat) : Nat := roundBinary64 (2 ^ s - 1)

/-- Number of sets that `initCache` creates. `main` computes
`S = (unsigned int) pow(2, s)` and stores it in the global `int S` (csim.c,
lines 55 and 334): for `s ≤ 30` that is `2 ^ s`; for `s = 31` the `int` is
negative, and from `s = 32` on the conversion to `unsigned int` leaves 0. The
loop `for (i=0; i<S; i++)` of `initCache` then allocates no set at all. -/
def numSets (c : Config) : Nat := if c.s ≤ 30 then 2 ^ c.s else 0

/-- Model of `initCache` (with the initial values of the global counters): `S`
sets of `E` lines, all of them `valid = 0, tag = 0, lru = 0`. -/
def initCache (c : Config) : State :=
  { cache := List.replicate (numSets c) (List.replicate c.E ⟨false, 0, 0⟩)
    set_index_mask := initMask c.s
    miss_count := 0
    hit_count := 0
    eviction_count := 0 }

/-! ## ptrRefreshLRU and arrRefreshLRU -/

/-- Body of both refresh loops: a valid line whose marker is at most
`lru_flag` gets `lru += lru_counter`. -/
def refreshLine (lru_flag : Nat) (l : cache_line_t) : cache_line_t :=
  if l.valid = true ∧ l.lru ≤ lru_flag then
    { l with lru := (l.lru + lru_counter) % ULL }
  else l

/-- Apply `f` to line `i` of a set (a write through `cache_set[i]` or through a
pointer to that line). -/
def modifyLine (f : cache_line_t → cache_line_t) (cache_set : cache_set_t) (i : Nat) :
    cache_set_t :=
  match cache_set[i]? with
  | some l => cache_set.set i (f l)
  | none => cache_set

/-- The `for( ; start < end; start++)` loop of `ptrRefreshLRU`, the first
argument counting the remaining iterations. -/
def ptrRefreshLoop (lru_flag : Nat) : Nat → Nat → cache_set_t → cache_set_t
  | 0, _, cache_set => cache_set
  | n + 1, start, cache_set =>
    ptrRefreshLoop lru_flag n (start + 1) (modifyLine (refreshLine lru_flag) cache_set start)

/-- Model of `ptrRefreshLRU(cache_set, start, end, lru_flag)`: refreshes the
lines with index in `[start, end)`. -/
def ptrRefreshLRU (cache_set : cache_set_t) (start end_ lru_flag : Nat) : cache_set_t :=
  ptrRefreshLoop lru_flag (end_ - start) start cache_set

/-- The loop of `arrRefreshLRU`; `cache_set_arr` holds pointers (indices) to
lines of `cache_set`. -/
def arrRefreshLoop (lru_flag : Nat) (cache_set_arr : List Nat) :
    Nat → Nat → cache_set_t → cache_set_t
  | 0, _, cache_set => cache_set
  | n + 1, start, cache_set =>
    match cache_set_arr[start]? with
    | some p =>
      arrRefreshLoop lru_flag cache_set_arr n (start + 1)
        (modifyLine (refreshLine lru_flag) cache_set p)
    | none => cache_set

/-- Model of `arrRefreshLRU(cache_set_arr, start, end, lru_flag)`: refreshes
the lines pointed to by entries `[start, end)` of the pointer array. -/
def arrRefreshLRU (cache_set : cache_set_t) (cache_set_arr : List Nat)
    (start end_ lru_flag : Nat) : cache_set_t :=
  arrRefreshLoop lru_flag cache_set_arr (end_ - start) start cache_set

/-! ## accessData -/

/-- Local state of the line search of `accessData`: the set being accessed,
the two pointer arrays (`valid_index` and `free_index` are their lengths) and
`hit_flag`. -/
structure Scan where
  cache_set : cache_set_t
  cache_free_subset : List Nat
  cache_valid_subset : List Nat
  hit_flag : Bool
deriving DecidableEq

/-- The "find cache line" loop `for(i=0; i<E; i++)` of `accessData`
(lines 164-188); the first numeric argument counts the remaining iterations,
the second is `i`. A hit refreshes the markers and leaves the loop. -/
def findLoop (tag E : Nat) : Nat → Nat → Scan → Scan
  | 0, _, sc => sc
  | n + 1, i, sc =>
    match sc.cache_set[i]? with
    | none => sc
    | some line =>
      if line.valid = true then
        let valid_subset := sc.cache_valid_subset ++ [i]
        if line.tag = tag then
          let lru_hit_cache := line.lru
          let set1 := sc.cache_set.set i { line with lru := 0 }
          let set2 := arrRefreshLRU set1 valid_subset 0 (valid_subset.length - 1) lru_hit_cache
          let set3 := ptrRefreshLRU set2 (i + 1) E lru_hit_cache
          { sc with cache_set := set3, cache_valid_subset := valid_subset, hit_flag := true }
        else
          findLoop tag E n (i + 1) { sc with cache_valid_subset := valid_subset }
      else
        findLoop tag E n (i + 1) { sc with cache_free_subset := sc.cache_free_subset ++ [i] }

/-- The eviction loop `for( i = 0; i < E; i++ )` of `accessData`
(lines 208-215): every line whose marker equals `E-1` when the loop reaches it
is overwritten. (`E - 1` is only evaluated when `E ≥ 1`.) -/
def evictLoop (tag E : Nat) : Nat → Nat → cache_set_t → cache_set_t
  | 0, _, cache_set => cache_set
  | n + 1, i, cache_set =>
    match cache_set[i]? with
    | none => cache_set
    | some line =>
      if line.lru = E - 1 then
        let set1 := cache_set.set i { line with lru := 0, tag := tag }
        let set2 := ptrRefreshLRU set1 0 i 0
        let set3 := ptrRefreshLRU set2 (i + 1) E 0
        evictLoop tag E n (i + 1) set3
      else
        evictLoop tag E n (i + 1) cache_set

/-- The writes `valid = 1; lru = 0; tag = tag` through `cache_free_subset[0]`
(lines 198-200). -/
def installLine (tag : Nat) (l : cache_line_t) : cache_line_t :=
  { l with valid := true, lru := 0, tag := tag }

/-- Set index computed by `accessData`: `(addr >> b) & set_index_mask`. -/
def setIndexOf (c : Config) (mask addr : Nat) : Nat := (addr >>> c.b) &&& mask

/-- Tag computed by `accessData`: `addr >> (s+b)`. -/
def tagOf (c : Config) (addr : Nat) : Nat := addr >>> (c.s + c.b)

/-- What `accessData` does to the selected set: the new contents of the set
and the increments of `(hit_count, miss_count, eviction_count)`. -/
def accessSet (E tag : Nat) (cache_set : cache_set_t) : cache_set_t × Nat × Nat × Nat :=
  let sc := findLoop tag E E 0 ⟨cache_set, [], [], false⟩
  if sc.hit_flag = true then
    (sc.cache_set, 1, 0, 0)
  else
    match sc.cache_free_subset with
    | p :: _ =>
      let set1 := arrRefreshLRU sc.cache_set sc.cache_valid_subset 0 sc.cache_valid_subset.length 0
      (modifyLine (installLine tag) set1 p, 0, 1, 0)
    | [] =>
      (evictLoop tag E E 0 sc.cache_set, 0, 1, 1)

/-- Model of `accessData(addr)`. The result is `none` when `cache[set_index]`
lies outside the array of sets, or when the set is not an array of `E` lines
(both are undefined in C and never happen after `initCache` with an exact
mask). -/
def accessData (c : Config) (st : State) (addr : Nat) : Option State :=
  let set_index := setIndexOf c st.set_index_mask addr
  let tag := tagOf c addr
  match st.cache[set_index]? with
  | none => none
  | some cache_set =>
    if cache_set.length = c.E then
      let r := accessSet c.E tag cache_set
      some { st with
        cache := st.cache.set set_index r.1
        hit_count := st.hit_count + r.2.1
        miss_count := st.miss_count + r.2.2.1
        eviction_count := st.eviction_count + r.2.2.2 }
    else none

/-- A sequence of `accessData` calls. -/
def accessAll (c : Config) : State → List Nat → Option State
  | st, [] => some st
  | st, addr :: rest =>
    match accessData c st addr with
    | none => none
    | some st1 => accessAll c st1 rest

/-- Cache states reachable from a freshly initialised cache by a finite
sequence of `accessData` calls. -/
def Reachable (c : Config) (st : State) : Prop :=
  ∃ addrs : List Nat, accessAll c (initCache c) addrs = some st

/-- The three counters as `(hit_count, miss_count, eviction_count)`. -/
def counters (st : State) : Nat × Nat × Nat :=
  (st.hit_count, st.miss_count, st.eviction_count)

/-! ## replayTrace: from decoded records to accesses -/

/-- Operation kinds of the trace records that lead to a cache access
(`OPERATIONS = "MLS"`). -/
inductive Op where
  | L
  | S
  | M
deriving DecidableEq

/-- Decoded trace record: the operation and the address `addr` that
`replayTrace` has parsed from the line. -/
structure AccessRecord where
  op : Op
  addr : Nat
deriving DecidableEq

/-- What `replayTrace` does with a decoded record (lines 264-265):
`accessData( addr ); if( modify_flag == 1 ) accessData( addr );`. -/
def replayRecord (c : Config) (st : State) (r : AccessRecord) : Option State :=
  match accessData c st r.addr with
  | none => none
  | some st1 => if r.op = Op.M then accessData c st1 r.addr else some st1

/-- The records of a trace, replayed in order. -/
def replayRecords (c : Config) : State → List AccessRecord → Option State
  | st, [] => some st
  | st, r :: rest =>
    match replayRecord c st r with
    | none => none
    | some st1 => replayRecords c st1 rest

/-! ## replayTrace: from the text of a trace line to accesses -/

/-- Size of the local array `str_address` (`ADDRESS_LENGTH`). -/
def ADDRESS_LENGTH : Nat := 64

/-- The characters of `OPERATIONS = "MLS"`. -/
def OPERATIONS : List Char := ['M', 'L', 'S']

/-- The value that the string-to-integer loop ORs into `addr` for one
character: `c - '0'` for `'0'..'9'`, else `c - 'a' + 10`, an `int` converted to
`unsigned long long` (ASCII characters). -/
def digitBits (ch : Char) : Nat :=
  if '0'.toNat ≤ ch.toNat ∧ ch.toNat ≤ '9'.toNat then ch.toNat - '0'.toNat
  else ((((ch.toNat : Int) - ('a'.toNat : Int) + 10) % (2 ^ 64 : Int))).toNat

/-- The string-to-integer loop of `replayTrace` (lines 256-262) over the
characters copied into `str_address`: `addr <<= 4; addr |= digit`. -/
def parseAddress (str_address : List Char) : Nat :=
  str_address.foldl (fun addr ch => ((addr <<< 4) % ULL) ||| digitBits ch) 0

/-- The addresses that `replayTrace` passes to `accessData` for one buffer
returned by `fgets` (the characters before the terminating `'\0'`), with
`verbosity = 0`. The pointer first skips to the first character of
`OPERATIONS`; if there is none, nothing is accessed. Otherwise `ptr += 2`, the
characters up to the next `','` are copied into `str_address` and converted.
The result is `none` where the C code reads past the end of the string or
writes past the end of `str_address`. -/
def lineAccesses (buf : List Char) : Option (List Nat) :=
  match buf.dropWhile (fun ch => !(OPERATIONS.contains ch)) with
  | [] => some []
  | op :: rest =>
    match rest with
    | [] => none
    | _ :: rest2 =>
      if ',' ∈ rest2 then
        let str_address := rest2.takeWhile (fun ch => ch != ',')
        if str_address.length ≤ ADDRESS_LENGTH then
          let addr := parseAddress str_address
          some (if op = 'M' then [addr, addr] else [addr])
        else none
      else none

/-- One iteration of the `while( fgets(...) )` loop of `replayTrace`. -/
def replayLine (c : Config) (st : State) (buf : List Char) : Option State :=
  match lineAccesses buf with
  | none => none
  | some addrs => accessAll c st addrs

/-- Model of `replayTrace` on the buffers that `fgets` returns for an opened
trace file. -/
def replayTrace (c : Config) : State → List (List Char) → Option State
  | st, [] => some st
  | st, buf :: rest =>
    match replayLine c st buf with
    | none => none
    | some st1 => replayTrace c st1 rest

/-- Value of a hexadecimal digit character, as the notation defines it:
`'0'..'9'` are 0 to 9 and `'a'..'f'` are 10 to 15. -/
def hexDigitValue (ch : Char) : Nat :=
  if '0'.toNat ≤ ch.toNat ∧ ch.toNat ≤ '9'.toNat then ch.toNat - '0'.toNat
  else if 'a'.toNat ≤ ch.toNat ∧ ch.toNat ≤ 'f'.toNat then ch.toNat - 'a'.toNat + 10
  else 0

/-- The characters `'0'..'9'` and `'a'..'f'`. -/
def isLowerHex (ch : Char) : Prop :=
  ('0'.toNat ≤ ch.toNat ∧ ch.toNat ≤ '9'.toNat) ∨ ('a'.toNat ≤ ch.toNat ∧ ch.toNat ≤ 'f'.toNat)

instance (ch : Char) : Decidable (isLowerHex ch) := by
  unfold isLowerHex
  infer_instance

/-- The number that a string of hexadecimal digits denotes in base 16 (most
significant digit first). -/
def hexValue (str : List Char) : Nat :=
  Nat.ofDigits 16 (str.reverse.map hexDigitValue)

/-! ## main: the argument check -/

/-- Model of `printUsage`: it prints the usage text and ends with `exit(0)`;
an exit is an error value carrying the status. -/
def printUsage : Except Nat Unit := Except.error 0

/-- The argument check of `main` (lines 326-331) on the values left by the
`getopt` loop (`trace_file = none` is `NULL`): it prints a message, calls
`printUsage` and then `exit(1)`. The result `ok` means that `main` goes on to
`initCache` and `replayTrace`. -/
def argCheck (s E b : Int) (trace_file : Option String) : Except Nat Unit :=
  if s = 0 ∨ E = 0 ∨ b = 0 ∨ trace_file = none then do
    printUsage
    Except.error 1
  else
    Except.ok ()

/-! ## Reference model: strict LRU with one recency list per set

This part is written from the specification, not from csim.c: it is the model
the simulator is compared with. -/

/-- State of the reference model: for each set index the tags it holds, most
recently used first, and the three counters. -/
structure LruState where
  sets : Nat → List Nat
  hit_count : Nat
  miss_count : Nat
  eviction_count : Nat

/-- Fresh reference cache: every set is empty. -/
def lruInit : LruState := ⟨fun _ => [], 0, 0, 0⟩

/-- One access in the reference model, with
`set_index = (address >> b) & (2^s − 1)` and `tag = address >> (s+b)`: a hit
moves the tag to the front; a miss inserts the tag at the front and, when the
set already holds `E` tags, drops the last one and counts one eviction. -/
def lruAccess (c : Config) (st : LruState) (addr : Nat) : LruState :=
  let set_index := (addr >>> c.b) &&& (2 ^ c.s - 1)
  let tag := addr >>> (c.s + c.b)
  let tags := st.sets set_index
  if tag ∈ tags then
    { st with
      sets := fun k => if k = set_index then tag :: tags.erase tag else st.sets k
      hit_count := st.hit_count + 1 }
  else if tags.length = c.E then
    { st with
      sets := fun k => if k = set_index then tag :: tags.dropLast else st.sets k
      miss_count := st.miss_count + 1
      eviction_count := st.eviction_count + 1 }
  else
    { st with
      sets := fun k => if k = set_index then tag :: tags else st.sets k
      miss_count := st.miss_count + 1 }

/-- A sequence of accesses in the reference model. -/
def lruAll (c : Config) : LruState → List Nat → LruState
  | st, [] => st
  | st, addr :: rest => lruAll c (lruAccess c st addr) rest

/-- Counters of the reference model as `(hit_count, miss_count, eviction_count)`. -/
def lruCounters (st : LruState) : Nat × Nat × Nat :=
  (st.hit_count, st.miss_count, st.eviction_count)

/-! ## Auxiliary notions used in the proofs -/

/-- Validity of line `j` of a set (`false` outside the set). -/
def validAt (cache_set : cache_set_t) (j : Nat) : Bool :=
  match cache_set[j]? with
  | some l => l.valid
  | none => false

/-- Shape of the cache that `initCache` establishes: `2 ^ s` sets of `E` lines
each, and the mask computed from `s`. -/
def WellShaped (c : Config) (st : State) : Prop :=
  st.cache.length = numSets c ∧ (∀ cs ∈ st.cache, cs.length = c.E) ∧
    st.set_index_mask = initMask c.s

/-- Every marker of the cache is 0 (the state of the markers when `E = 1`). -/
def MarkersZero (st : State) : Prop := ∀ cs ∈ st.cache, ∀ l ∈ cs, l.lru = 0

/-- Some valid line of the set has marker `v`. -/
def HasMarker (cache_set : cache_set_t) (v : Nat) : Prop :=
  ∃ l ∈ cache_set, l.valid = true ∧ l.lru = v

/-- The markers of the valid lines of a set have no gaps: below a marker that
occurs, every value occurs. -/
def NoGaps (cache_set : cache_set_t) : Prop :=
  ∀ v, HasMarker cache_set v → ∀ u, u < v → HasMarker cache_set u

/-- Common shape of the three updates of a set: line `k` ends valid with marker
0 and every other line is the old one refreshed with threshold `h`. -/
def Touched (h k : Nat) (cs ns : cache_set_t) : Prop :=
  (∃ lk, ns[k]? = some lk ∧ lk.valid = true ∧ lk.lru = 0) ∧
    ∀ j, j ≠ k → ns[j]? = (cs[j]?).map (refreshLine h)

/-- Invariant of a set: the markers of its valid lines have no gaps, and every
marker is an `unsigned long long` value. -/
def MarkersOk (cache_set : cache_set_t) : Prop :=
  NoGaps cache_set ∧ ∀ (j : Nat) (l : cache_line_t), cache_set[j]? = some l → l.lru < ULL

/-! ## Basic facts about the loops -/

theorem modifyLine_length (f : cache_line_t → cache_line_t) (cs : cache_set_t) (i : Nat) :
    (modifyLine f cs i).length = cs.length := by
  unfold modifyLine
  split <;> simp

theorem modifyLine_getElem? (f : cache_line_t → cache_line_t) (cs : cache_set_t) (i j : Nat) :
    (modifyLine f cs i)[j]? = if i = j then cs[j]?.map f else cs[j]? := by
  unfold modifyLine
  split
  · rename_i l hl
    rw [List.getElem?_set]
    by_cases h : i = j
    · subst h
      have hlt : i < cs.length := (List.getElem?_eq_some.1 hl).1
      simp [hl, hlt]
    · simp [h]
  · rename_i hn
    by_cases h : i = j
    · subst h
      simp [hn]
    · simp [h]

theorem ptrRefreshLoop_length (flag : Nat) :
    ∀ (n start : Nat) (cs : cache_set_t), (ptrRefreshLoop flag n start cs).length = cs.length := by
  intro n
  induction n with
  | zero => intro start cs; rfl
  | succ n ih =>
    intro start cs
    simp only [ptrRefreshLoop]
    rw [ih, modifyLine_length]

theorem ptrRefreshLoop_getElem? (flag : Nat) :
    ∀ (n start : Nat) (cs : cache_set_t) (j : Nat),
      (ptrRefreshLoop flag n start cs)[j]? =
        if start ≤ j ∧ j < start + n then cs[j]?.map (refreshLine flag) else cs[j]? := by
  intro n
  induction n with
  | zero =>
    intro start cs j
    have hno : ¬ (start ≤ j ∧ j < start) := by omega
    simp [ptrRefreshLoop, hno]
  | succ n ih =>
    intro start cs j
    simp only [ptrRefreshLoop]
    rw [ih, modifyLine_getElem?]
    by_cases h : start = j
    · subst h
      have h1 : ¬ (start + 1 ≤ start ∧ start < start + 1 + n) := by omega
      have h2 : start ≤ start ∧ start < start + (n + 1) := by omega
      simp [h1, h2]
    · by_cases h3 : start + 1 ≤ j ∧ j < start + 1 + n
      · have h4 : start ≤ j ∧ j < start + (n + 1) := by omega
        simp [h, h3, h4]
      · have h4 : ¬ (start ≤ j ∧ j < start + (n + 1)) := by omega
        simp [h, h3, h4]

theorem ptrRefreshLRU_length (cs : cache_set_t) (a b flag : Nat) :
    (ptrRefreshLRU cs a b flag).length = cs.length :=
  ptrRefreshLoop_length flag _ _ _

theorem ptrRefreshLRU_getElem? (cs : cache_set_t) (a b flag j : Nat) :
    (ptrRefreshLRU cs a b flag)[j]? =
      if a ≤ j ∧ j < b then cs[j]?.map (refreshLine flag) else cs[j]? := by
  unfold ptrRefreshLRU
  rw [ptrRefreshLoop_getElem?]
  by_cases h : a ≤ j ∧ j < b
  · have h2 : a ≤ j ∧ j < a + (b - a) := by omega
    simp [h, h2]
  · have h2 : ¬ (a ≤ j ∧ j < a + (b - a)) := by omega
    simp [h, h2]

theorem arrRefreshLoop_eq_foldl (flag : Nat) (arr : List Nat) :
    ∀ (n start : Nat) (cs : cache_set_t),
      arrRefreshLoop flag arr n start cs =
        ((arr.drop start).take n).foldl (modifyLine (refreshLine flag)) cs := by
  intro n
  induction n with
  | zero => intro start cs; simp [arrRefreshLoop]
  | succ n ih =>
    intro start cs
    simp only [arrRefreshLoop]
    cases h : arr[start]? with
    | none =>
      have hl : arr.length ≤ start := List.getElem?_eq_none_iff.1 h
      simp [List.drop_eq_nil_of_le hl]
    | some p =>
      obtain ⟨hlt, hp⟩ := List.getElem?_eq_some.1 h
      have hd : arr.drop start = p :: arr.drop (start + 1) := by
        rw [← hp]
        exact List.drop_eq_getElem_cons hlt
      simp only [ih, hd, List.take_succ_cons, List.foldl_cons]

theorem foldl_modifyLine_length (f : cache_line_t → cache_line_t) :
    ∀ (l : List Nat) (cs : cache_set_t), (l.foldl (modifyLine f) cs).length = cs.length := by
  intro l
  induction l with
  | nil => intro cs; rfl
  | cons p l ih =>
    intro cs
    simp only [List.foldl_cons]
    rw [ih, modifyLine_length]

theorem foldl_modifyLine_getElem? (f : cache_line_t → cache_line_t) :
    ∀ (l : List Nat) (cs : cache_set_t) (j : Nat), l.Nodup →
      (l.foldl (modifyLine f) cs)[j]? = if j ∈ l then cs[j]?.map f else cs[j]? := by
  intro l
  induction l with
  | nil => intro cs j _; simp
  | cons p l ih =>
    intro cs j hnd
    obtain ⟨hp, hl⟩ := List.nodup_cons.1 hnd
    simp only [List.foldl_cons]
    rw [ih _ _ hl, modifyLine_getElem?]
    by_cases hj : j ∈ l
    · have hne : p ≠ j := fun h => hp (h ▸ hj)
      simp [hj, hne]
    · by_cases hpj : p = j
      · subst hpj
        simp [hj]
      · have hne : ¬ j = p := fun h => hpj h.symm
        simp [hj, hpj, hne]

theorem arrRefreshLRU_length (cs : cache_set_t) (arr : List Nat) (a b flag : Nat) :
    (arrRefreshLRU cs arr a b flag).length = cs.length := by
  unfold arrRefreshLRU
  rw [arrRefreshLoop_eq_foldl, foldl_modifyLine_length]

theorem findLoop_length (tag E : Nat) :
    ∀ (n i : Nat) (sc : Scan),
      (findLoop tag E n i sc).cache_set.length = sc.cache_set.length := by
  intro n
  induction n with
  | zero => intro i sc; rfl
  | succ n ih =>
    intro i sc
    simp only [findLoop]
    cases h : sc.cache_set[i]? with
    | none => rfl
    | some line =>
      simp only []
      by_cases hv : line.valid = true
      · by_cases ht : line.tag = tag
        · simp [hv, ht, ptrRefreshLRU_length, arrRefreshLRU_length]
        · simp [hv, ht, ih]
      · simp [hv, ih]

theorem evictLoop_length (tag E : Nat) :
    ∀ (n i : Nat) (cs : cache_set_t), (evictLoop tag E n i cs).length = cs.length := by
  intro n
  induction n with
  | zero => intro i cs; rfl
  | succ n ih =>
    intro i cs
    simp only [evictLoop]
    cases h : cs[i]? with
    | none => rfl
    | some line =>
      simp only []
      by_cases hl : line.lru = E - 1
      · simp [hl, ih, ptrRefreshLRU_length]
      · simp [hl, ih]

theorem accessSet_length (E tag : Nat) (cs : cache_set_t) :
    (accessSet E tag cs).1.length = cs.length := by
  unfold accessSet
  simp only []
  split
  · exact findLoop_length tag E E 0 _
  · split
    · rw [modifyLine_length, arrRefreshLRU_length]
      exact findLoop_length tag E E 0 _
    · rw [evictLoop_length]
      exact findLoop_length tag E E 0 _

/-! ## Shape of the reachable states -/

theorem initCache_wellShaped (c : Config) : WellShaped c (initCache c) := by
  refine ⟨by simp [initCache], ?_, rfl⟩
  intro cs hcs
  simp only [initCache] at hcs
  rw [List.eq_of_mem_replicate hcs]
  simp

theorem accessData_wellShaped (c : Config) (st st1 : State) (addr : Nat)
    (h : WellShaped c st) (hacc : accessData c st addr = some st1) : WellShaped c st1 := by
  obtain ⟨h1, h2, h3⟩ := h
  unfold accessData at hacc
  simp only [] at hacc
  split at hacc
  · exact absurd hacc (by simp)
  · rename_i cache_set hset
    split at hacc
    · rename_i hlen
      injection hacc with hacc
      subst hacc
      refine ⟨by simpa using h1, ?_, h3⟩
      intro cs hcs
      rcases List.mem_or_eq_of_mem_set hcs with hmem | heq
      · exact h2 cs hmem
      · rw [heq, accessSet_length]
        exact hlen
    · exact absurd hacc (by simp)

theorem accessAll_wellShaped (c : Config) :
    ∀ (addrs : List Nat) (st st1 : State), WellShaped c st →
      accessAll c st addrs = some st1 → WellShaped c st1 := by
  intro addrs
  induction addrs with
  | nil =>
    intro st st1 h hacc
    simp only [accessAll] at hacc
    injection hacc with hacc
    exact hacc ▸ h
  | cons a rest ih =>
    intro st st1 h hacc
    simp only [accessAll] at hacc
    cases h2 : accessData c st a with
    | none => simp [h2] at hacc
    | some st2 =>
      simp only [h2] at hacc
      exact ih st2 st1 (accessData_wellShaped c st st2 a h h2) hacc

theorem Reachable.wellShaped {c : Config} {st : State} (h : Reachable c st) :
    WellShaped c st := by
  obtain ⟨addrs, hacc⟩ := h
  exact accessAll_wellShaped c addrs _ _ (initCache_wellShaped c) hacc

/-! ## The line search when no valid line holds the tag -/

theorem findLoop_miss (tag E : Nat) :
    ∀ (n i : Nat) (sc : Scan), i + n ≤ sc.cache_set.length →
      (∀ (j : Nat) (l : cache_line_t), sc.cache_set[j]? = some l → l.valid = true →
        l.tag ≠ tag) →
      findLoop tag E n i sc =
        { sc with
          cache_free_subset :=
            sc.cache_free_subset ++ (List.range' i n).filter (fun j => !validAt sc.cache_set j)
          cache_valid_subset :=
            sc.cache_valid_subset ++ (List.range' i n).filter (fun j => validAt sc.cache_set j) } := by
  intro n
  induction n with
  | zero => intro i sc _ _; simp [findLoop]
  | succ n ih =>
    intro i sc hlen hno
    have hi : i < sc.cache_set.length := by omega
    have hget : sc.cache_set[i]? = some sc.cache_set[i] := List.getElem?_eq_getElem hi
    simp only [findLoop, hget]
    by_cases hv : (sc.cache_set[i]).valid = true
    · have ht := hno i _ hget hv
      have hva : validAt sc.cache_set i = true := by simp [validAt, hget, hv]
      simp only [hv, ht, if_true, if_false]
      rw [ih (i + 1) _ (by simp only []; omega) (by simpa using hno)]
      simp [List.range'_succ, List.filter_cons, hva]
    · have hva : validAt sc.cache_set i = false := by simp [validAt, hget, hv]
      simp only [hv, Bool.false_eq_true, if_false]
      rw [ih (i + 1) _ (by simp only []; omega) (by simpa using hno)]
      simp [List.range'_succ, List.filter_cons, hva]

theorem filter_range'_head (P : Nat → Bool) :
    ∀ (n i : Nat), (∃ j, i ≤ j ∧ j < i + n ∧ P j = true) →
      ∃ p rest, (List.range' i n).filter P = p :: rest ∧ P p = true ∧ i ≤ p ∧ p < i + n ∧
        ∀ j, i ≤ j → j < p → P j = false := by
  intro n
  induction n with
  | zero =>
    intro i h
    obtain ⟨j, h1, h2, _⟩ := h
    omega
  | succ n ih =>
    intro i h
    by_cases hP : P i = true
    · refine ⟨i, (List.range' (i + 1) n).filter P, ?_, hP, le_refl i, by omega, ?_⟩
      · simp [List.range'_succ, List.filter_cons, hP]
      · intro j h1 h2
        omega
    · obtain ⟨j, h1, h2, h3⟩ := h
      have hij : i ≠ j := fun e => hP (e ▸ h3)
      obtain ⟨p, rest, e1, e2, e3, e4, e5⟩ := ih (i + 1) ⟨j, by omega, by omega, h3⟩
      refine ⟨p, rest, ?_, e2, by omega, by omega, ?_⟩
      · simp [List.range'_succ, List.filter_cons, hP, e1]
      · intro k h4 h5
        by_cases hk : k = i
        · subst hk
          simpa using hP
        · exact e5 k (by omega) h5

theorem refreshLine_invalid (flag : Nat) (l : cache_line_t) (h : l.valid = false) :
    refreshLine flag l = l := by
  simp [refreshLine, h]

theorem refreshLine_valid (flag : Nat) (l : cache_line_t) : (refreshLine flag l).valid = l.valid := by
  unfold refreshLine
  split <;> rfl

theorem arrRefreshLRU_all_valid (cs : cache_set_t) (flag : Nat) :
    arrRefreshLRU cs ((List.range' 0 cs.length).filter (fun j => validAt cs j)) 0
        ((List.range' 0 cs.length).filter (fun j => validAt cs j)).length flag =
      cs.map (refreshLine flag) := by
  unfold arrRefreshLRU
  rw [arrRefreshLoop_eq_foldl]
  simp only [Nat.sub_zero, List.drop_zero, List.take_length]
  apply List.ext_getElem?
  intro j
  rw [foldl_modifyLine_getElem? _ _ _ _ ((List.nodup_range' 0 cs.length).filter _)]
  rw [List.getElem?_map]
  by_cases hj : j < cs.length
  · have hget : cs[j]? = some cs[j] := List.getElem?_eq_getElem hj
    by_cases hv : validAt cs j = true
    · have hmem : j ∈ (List.range' 0 cs.length).filter (fun j => validAt cs j) := by
        simp [List.mem_filter, List.mem_range'_1, hj, hv]
      simp [hmem]
    · have hmem : ¬ j ∈ (List.range' 0 cs.length).filter (fun j => validAt cs j) := by
        simp [List.mem_filter, hv]
      have hinv : (cs[j]).valid = false := by
        simpa [validAt, hget] using hv
      simp [hmem, hget, refreshLine_invalid flag _ hinv]
  · have hnone : cs[j]? = none := List.getElem?_eq_none (by omega)
    simp [hnone]

theorem accessSet_miss_free (E tag : Nat) (cs : cache_set_t) (hlen : cs.length = E)
    (habsent : ∀ (j : Nat) (l : cache_line_t), cs[j]? = some l → l.valid = true → l.tag ≠ tag)
    (hfree : ∃ j, j < E ∧ validAt cs j = false) :
    ∃ p, p < E ∧ validAt cs p = false ∧ (∀ j, j < p → validAt cs j = true) ∧
      accessSet E tag cs = (modifyLine (installLine tag) (cs.map (refreshLine 0)) p, 0, 1, 0) := by
  subst hlen
  obtain ⟨j0, hj0, hv0⟩ := hfree
  obtain ⟨p, rest, e1, e2, _, e4, e5⟩ :=
    filter_range'_head (fun j => !validAt cs j) cs.length 0 ⟨j0, by omega, by omega, by simp [hv0]⟩
  refine ⟨p, by omega, by simpa using e2, ?_, ?_⟩
  · intro j hj
    simpa using e5 j (by omega) hj
  · unfold accessSet
    rw [findLoop_miss tag cs.length cs.length 0 ⟨cs, [], [], false⟩ (by simp) (by simpa using habsent)]
    simp only [List.nil_append, e1, Bool.false_eq_true, if_false]
    rw [arrRefreshLRU_all_valid]

theorem initMask_exact (s : Nat) (hs : s ≤ 53) : initMask s = 2 ^ s - 1 := by
  have h1 : 2 ^ s ≤ 2 ^ 53 := Nat.pow_le_pow_right (by decide) hs
  have h2 : 0 < 2 ^ s := Nat.two_pow_pos _
  have h3 : 2 ^ s - 1 < 2 ^ 53 := by omega
  simp only [initMask, roundBinary64, h3, if_true]

theorem initCache_cache_length (c : Config) : (initCache c).cache.length = numSets c := by
  simp [initCache]

theorem numSets_small_s (c : Config) (hs : c.s ≤ 30) : numSets c = 2 ^ c.s := by
  simp [numSets, hs]

theorem numSets_large_s (c : Config) (hs : 31 ≤ c.s) : numSets c = 0 := by
  have h : ¬ c.s ≤ 30 := by omega
  simp [numSets, h]

theorem accessData_eq_none_of_le (c : Config) (st : State) (addr : Nat)
    (h : st.cache.length ≤ setIndexOf c st.set_index_mask addr) : accessData c st addr = none := by
  unfold accessData
  simp only [List.getElem?_eq_none h]

/-- For `s ≤ 30` the mask is exact and the array of sets has `2^s` sets:
`accessData` works with the set index `(addr >> b) & (2^s - 1)`, which lies
inside the array of sets. -/
theorem setIndexOf_small_s (c : Config) (st : State) (addr : Nat) (hs : c.s ≤ 30)
    (hshape : WellShaped c st) :
    setIndexOf c st.set_index_mask addr = (addr >>> c.b) &&& (2 ^ c.s - 1) ∧
      setIndexOf c st.set_index_mask addr < st.cache.length := by
  obtain ⟨h1, _, h3⟩ := hshape
  have hm : st.set_index_mask = 2 ^ c.s - 1 := by rw [h3, initMask_exact _ (by omega)]
  have h2 : 0 < 2 ^ c.s := Nat.two_pow_pos _
  refine ⟨by simp [setIndexOf, hm], ?_⟩
  have hle : setIndexOf c st.set_index_mask addr ≤ 2 ^ c.s - 1 := by
    unfold setIndexOf
    rw [hm]
    exact Nat.and_le_right
  rw [h1, numSets_small_s c hs]
  omega

/-- From `s = 54` to `s = 63` the double `pow(2, s) - 1` is rounded up to
`2 ^ s`. -/
theorem initMask_large (s : Nat) (h1 : 54 ≤ s) (h2 : s ≤ 63) : initMask s = 2 ^ s := by
  interval_cases s <;> decide

/-- C1 (fails from `s = 54` on): with `s = 54`, `b = 1` (`s + b < 64`) the mask
computed by `initCache` is `2^54`, not `2^54 - 1`; for address 2 `accessData`
works with set index 0, whereas `(addr >> b) & (2^s - 1)` is 1. -/
theorem initCache_mask_inexact_at_54 :
    (initCache ⟨54, 1, 1⟩).set_index_mask = 2 ^ 54 ∧
    (initCache ⟨54, 1, 1⟩).set_index_mask ≠ 2 ^ 54 - 1 ∧
    setIndexOf ⟨54, 1, 1⟩ (initCache ⟨54, 1, 1⟩).set_index_mask 2 = 0 ∧
    (2 >>> 1) &&& (2 ^ 54 - 1) = 1 :=
  ⟨by decide, by decide, by decide, by decide⟩

/-- Address decomposition for `s ≤ 30`, where the array of sets has its `2^s`
sets: the mask computed by `initCache` is `2^s - 1`, it is still the mask in
every reachable state, and `accessData(addr)` selects the set with index
`(addr >> b) & (2^s - 1)`, which exists, and handles it with the tag
`addr >> (s + b)`. -/
theorem accessData_decomposition (c : Config) (st : State) (addr : Nat)
    (hs : c.s ≤ 30) (_hsb : c.s + c.b < 64) (_haddr : addr < 2 ^ 64) (hreach : Reachable c st) :
    (initCache c).set_index_mask = 2 ^ c.s - 1 ∧ st.set_index_mask = 2 ^ c.s - 1 ∧
    ∃ cache_set, st.cache[(addr >>> c.b) &&& (2 ^ c.s - 1)]? = some cache_set ∧
      accessData c st addr = some { st with
        cache := st.cache.set ((addr >>> c.b) &&& (2 ^ c.s - 1))
          (accessSet c.E (addr >>> (c.s + c.b)) cache_set).1
        hit_count := st.hit_count + (accessSet c.E (addr >>> (c.s + c.b)) cache_set).2.1
        miss_count := st.miss_count + (accessSet c.E (addr >>> (c.s + c.b)) cache_set).2.2.1
        eviction_count :=
          st.eviction_count + (accessSet c.E (addr >>> (c.s + c.b)) cache_set).2.2.2 } := by
  have hshape := hreach.wellShaped
  obtain ⟨hidx, hlt⟩ := setIndexOf_small_s c st addr hs hshape
  have hs53 : c.s ≤ 53 := by omega
  have hm : st.set_index_mask = 2 ^ c.s - 1 := by rw [hshape.2.2, initMask_exact _ hs53]
  refine ⟨initMask_exact _ hs53, hm, ?_⟩
  rw [hidx] at hlt
  refine ⟨_, List.getElem?_eq_getElem hlt, ?_⟩
  have hlen : (st.cache[(addr >>> c.b) &&& (2 ^ c.s - 1)]).length = c.E :=
    hshape.2.1 _ (List.getElem_mem _)
  unfold accessData
  simp only [hidx, List.getElem?_eq_getElem hlt, hlen, if_true, tagOf]

/-- The address decomposition at `s = 1, b = 1, E = 1`, in the state after a
load of 0x0, for the address 0x6 (set index 1, tag 1). -/
theorem accessData_decomposition_witness :
    (1 ≤ 30 ∧ 1 + 1 < 64 ∧ 0x6 < 2 ^ 64) ∧
    Reachable ⟨1, 1, 1⟩ ⟨[[⟨true, 0, 0⟩], [⟨false, 0, 0⟩]], 1, 1, 0, 0⟩ ∧
    (0x6 >>> 1) &&& (2 ^ 1 - 1) = 1 ∧ 0x6 >>> (1 + 1) = 1 ∧
    (initCache ⟨1, 1, 1⟩).set_index_mask = 2 ^ 1 - 1 ∧
    (1 : Nat) = 2 ^ 1 - 1 ∧
    ∃ cache_set,
      ([[⟨true, 0, 0⟩], [⟨false, 0, 0⟩]] : cache_t)[(0x6 >>> 1) &&& (2 ^ 1 - 1)]? =
        some cache_set ∧
      accessData ⟨1, 1, 1⟩ ⟨[[⟨true, 0, 0⟩], [⟨false, 0, 0⟩]], 1, 1, 0, 0⟩ 0x6 =
        some ⟨List.set [[⟨true, 0, 0⟩], [⟨false, 0, 0⟩]] ((0x6 >>> 1) &&& (2 ^ 1 - 1))
            (accessSet 1 (0x6 >>> (1 + 1)) cache_set).1,
          1,
          1 + (accessSet 1 (0x6 >>> (1 + 1)) cache_set).2.2.1,
          0 + (accessSet 1 (0x6 >>> (1 + 1)) cache_set).2.1,
          0 + (accessSet 1 (0x6 >>> (1 + 1)) cache_set).2.2.2⟩ :=
  ⟨by decide, ⟨[0x0], by decide⟩, by decide, by decide,
    accessData_decomposition ⟨1, 1, 1⟩ ⟨[[⟨true, 0, 0⟩], [⟨false, 0, 0⟩]], 1, 1, 0, 0⟩ 0x6
      (by decide) (by decide) (by decide) ⟨[0x0], by decide⟩⟩

/-! ## Replacement: where the simulator leaves strict LRU -/

/-- C2 (fails for `E = 2`): with `s = 1, b = 1, E = 2` the accesses
0, 4, 8, 4 (one set, tags 0, 1, 2, 1) end with `(hits, misses, evictions) =
(0, 4, 2)` in the simulator and `(1, 3, 1)` in the strict-LRU reference. -/
theorem lru_reference_differs_two_way :
    (accessAll ⟨1, 1, 2⟩ (initCache ⟨1, 1, 2⟩) [0, 4, 8, 4]).map counters = some (0, 4, 2) ∧
    lruCounters (lruAll ⟨1, 1, 2⟩ lruInit [0, 4, 8, 4]) = (1, 3, 1) :=
  ⟨by decide, by decide⟩

/-- C3 (fails for `E = 3`): with `s = 1, b = 1, E = 3`, after loads of 0, 4, 8
the set 0 is full and does not hold tag 3; the Modify of address 12 then
misses twice: `miss_count` goes from 3 to 5, `eviction_count` from 0 to 2 and
`hit_count` stays 0. -/
theorem modify_misses_twice_three_way :
    accessAll ⟨1, 1, 3⟩ (initCache ⟨1, 1, 3⟩) [0, 4, 8] =
      some ⟨[[⟨true, 0, 1⟩, ⟨true, 1, 1⟩, ⟨true, 2, 0⟩],
             [⟨false, 0, 0⟩, ⟨false, 0, 0⟩, ⟨false, 0, 0⟩]], 1, 3, 0, 0⟩ ∧
    tagOf ⟨1, 1, 3⟩ 12 = 3 ∧ setIndexOf ⟨1, 1, 3⟩ 1 12 = 0 ∧
    replayRecord ⟨1, 1, 3⟩
        ⟨[[⟨true, 0, 1⟩, ⟨true, 1, 1⟩, ⟨true, 2, 0⟩],
          [⟨false, 0, 0⟩, ⟨false, 0, 0⟩, ⟨false, 0, 0⟩]], 1, 3, 0, 0⟩ ⟨Op.M, 12⟩ =
      some ⟨[[⟨true, 0, 1⟩, ⟨true, 1, 1⟩, ⟨true, 2, 0⟩],
             [⟨false, 0, 0⟩, ⟨false, 0, 0⟩, ⟨false, 0, 0⟩]], 1, 5, 0, 2⟩ :=
  ⟨by decide, by decide, by decide, by decide⟩

/-- C4 (fails for `E = 2`): with `s = 1, b = 1, E = 2`, after loads of 0 and 4
set 0 holds tag 0 (marker 1) and tag 1 (marker 0); the access to address 8
(tag 2) overwrites the tag of both lines, not only of the least recently used
one, while `eviction_count` goes up by one. -/
theorem eviction_overwrites_both_lines :
    accessAll ⟨1, 1, 2⟩ (initCache ⟨1, 1, 2⟩) [0, 4] =
      some ⟨[[⟨true, 0, 1⟩, ⟨true, 1, 0⟩], [⟨false, 0, 0⟩, ⟨false, 0, 0⟩]], 1, 2, 0, 0⟩ ∧
    accessData ⟨1, 1, 2⟩
        ⟨[[⟨true, 0, 1⟩, ⟨true, 1, 0⟩], [⟨false, 0, 0⟩, ⟨false, 0, 0⟩]], 1, 2, 0, 0⟩ 8 =
      some ⟨[[⟨true, 2, 1⟩, ⟨true, 2, 0⟩], [⟨false, 0, 0⟩, ⟨false, 0, 0⟩]], 1, 3, 0, 1⟩ :=
  ⟨by decide, by decide⟩

/-- C5 (fails for `E = 2`): with `s = 1, b = 1, E = 2` the state reached by
loads of 0, 4, 8 has two valid lines with tag 2 in set 0. -/
theorem duplicate_tag_two_way :
    ∃ st : State, Reachable ⟨1, 1, 2⟩ st ∧
      st.cache[0]? = some [⟨true, 2, 1⟩, ⟨true, 2, 0⟩] :=
  ⟨⟨[[⟨true, 2, 1⟩, ⟨true, 2, 0⟩], [⟨false, 0, 0⟩, ⟨false, 0, 0⟩]], 1, 3, 0, 1⟩,
    ⟨[0, 4, 8], by decide⟩, by decide⟩

/-- C6 (fails for `E = 3`): with `s = 1, b = 1, E = 3` the state reached by
loads of 0, 4, 8 has two valid lines with marker 1 in set 0. -/
theorem lru_markers_tie_three_way :
    ∃ st : State, Reachable ⟨1, 1, 3⟩ st ∧
      st.cache[0]? = some [⟨true, 0, 1⟩, ⟨true, 1, 1⟩, ⟨true, 2, 0⟩] :=
  ⟨⟨[[⟨true, 0, 1⟩, ⟨true, 1, 1⟩, ⟨true, 2, 0⟩],
      [⟨false, 0, 0⟩, ⟨false, 0, 0⟩, ⟨false, 0, 0⟩]], 1, 3, 0, 0⟩,
    ⟨[0, 4, 8], by decide⟩, by decide⟩

/-- C7 (fails for `E = 4`): with `s = 1, b = 1, E = 4`, after the accesses
0, 4, 8, 12, 0, 4, 16 set 0 holds tags 0, 1, 4, 3 with markers 1, 1, 0, 2. The
hit on address 0 gives markers 0, 2, 1, 2: the line with tag 1 was strictly
more recent than the line with tag 3 and is no longer. -/
theorem hit_loses_relative_order_four_way :
    accessAll ⟨1, 1, 4⟩ (initCache ⟨1, 1, 4⟩) [0, 4, 8, 12, 0, 4, 16] =
      some ⟨[[⟨true, 0, 1⟩, ⟨true, 1, 1⟩, ⟨true, 4, 0⟩, ⟨true, 3, 2⟩],
             [⟨false, 0, 0⟩, ⟨false, 0, 0⟩, ⟨false, 0, 0⟩, ⟨false, 0, 0⟩]], 1, 5, 2, 1⟩ ∧
    accessData ⟨1, 1, 4⟩
        ⟨[[⟨true, 0, 1⟩, ⟨true, 1, 1⟩, ⟨true, 4, 0⟩, ⟨true, 3, 2⟩],
          [⟨false, 0, 0⟩, ⟨false, 0, 0⟩, ⟨false, 0, 0⟩, ⟨false, 0, 0⟩]], 1, 5, 2, 1⟩ 0 =
      some ⟨[[⟨true, 0, 0⟩, ⟨true, 1, 2⟩, ⟨true, 4, 1⟩, ⟨true, 3, 2⟩],
             [⟨false, 0, 0⟩, ⟨false, 0, 0⟩, ⟨false, 0, 0⟩, ⟨false, 0, 0⟩]], 1, 5, 3, 1⟩ :=
  ⟨by decide, by decide⟩

/-! ## Direct-mapped caches -/

theorem accessAll_invariant (c : Config) (P : State → Prop)
    (hstep : ∀ (st st1 : State) (addr : Nat), P st → accessData c st addr = some st1 → P st1) :
    ∀ (addrs : List Nat) (st st1 : State), P st → accessAll c st addrs = some st1 → P st1 := by
  intro addrs
  induction addrs with
  | nil =>
    intro st st1 h hacc
    simp only [accessAll] at hacc
    injection hacc with hacc
    exact hacc ▸ h
  | cons a rest ih =>
    intro st st1 h hacc
    simp only [accessAll] at hacc
    cases h2 : accessData c st a with
    | none => simp [h2] at hacc
    | some st2 =>
      simp only [h2] at hacc
      exact ih st2 st1 (hstep st st2 a h h2) hacc

theorem accessSet_direct_mapped (tag : Nat) (l : cache_line_t) (h0 : l.lru = 0) :
    accessSet 1 tag [l] =
      if l.valid = true then
        if l.tag = tag then ([l], 1, 0, 0) else ([⟨true, tag, 0⟩], 0, 1, 1)
      else ([⟨true, tag, 0⟩], 0, 1, 0) := by
  obtain ⟨v, t, r⟩ := l
  simp only at h0
  subst h0
  cases v
  · simp [accessSet, findLoop, arrRefreshLRU, arrRefreshLoop, modifyLine, installLine]
  · by_cases ht : t = tag
    · simp [accessSet, findLoop, arrRefreshLRU, arrRefreshLoop, ptrRefreshLRU, ptrRefreshLoop, ht]
    · simp [accessSet, findLoop, evictLoop, ptrRefreshLRU, ptrRefreshLoop, ht]

/-- With `E = 1`, an access that is defined leaves in the selected set one
valid line holding the tag of the address, with marker 0. -/
theorem accessData_direct_mapped (c : Config) (st st1 : State) (addr : Nat) (hE : c.E = 1)
    (hz : MarkersZero st) (hacc : accessData c st addr = some st1) :
    MarkersZero st1 ∧ st1.set_index_mask = st.set_index_mask ∧
      st1.cache.length = st.cache.length ∧
      ∃ l1, st1.cache[setIndexOf c st.set_index_mask addr]? = some [l1] ∧
        l1.valid = true ∧ l1.tag = tagOf c addr ∧ l1.lru = 0 := by
  unfold accessData at hacc
  simp only [] at hacc
  split at hacc
  · exact absurd hacc (by simp)
  · rename_i cache_set hset
    split at hacc
    · rename_i hlen
      rw [hE] at hlen hacc
      obtain ⟨l, hl⟩ := List.length_eq_one.1 hlen
      subst hl
      have hidx : setIndexOf c st.set_index_mask addr < st.cache.length :=
        (List.getElem?_eq_some.1 hset).1
      have hl0 : l.lru = 0 :=
        hz [l] (List.mem_iff_getElem?.2 ⟨_, hset⟩) l (List.mem_singleton_self l)
      have hnew : ∃ l1, (accessSet 1 (tagOf c addr) [l]).1 = [l1] ∧
          l1.valid = true ∧ l1.tag = tagOf c addr ∧ l1.lru = 0 := by
        rw [accessSet_direct_mapped _ l hl0]
        by_cases hv : l.valid = true
        · by_cases ht : l.tag = tagOf c addr
          · exact ⟨l, by simp [hv, ht], hv, ht, hl0⟩
          · exact ⟨⟨true, tagOf c addr, 0⟩, by simp [hv, ht], rfl, rfl, rfl⟩
        · exact ⟨⟨true, tagOf c addr, 0⟩, by simp [hv], rfl, rfl, rfl⟩
      obtain ⟨l1, e1, e2, e3, e4⟩ := hnew
      injection hacc with hacc
      subst hacc
      refine ⟨?_, rfl, by simp, l1, by simp [List.getElem?_set, hidx, e1], e2, e3, e4⟩
      intro cs hcs
      rcases List.mem_or_eq_of_mem_set hcs with hmem | heq
      · exact hz cs hmem
      · intro l2 hl2
        rw [heq, e1, List.mem_singleton] at hl2
        rw [hl2]
        exact e4
    · exact absurd hacc (by simp)

theorem initCache_markersZero (c : Config) : MarkersZero (initCache c) := by
  intro cs hcs l hl
  simp only [initCache] at hcs
  rw [List.eq_of_mem_replicate hcs] at hl
  rw [List.eq_of_mem_replicate hl]

theorem Reachable.markersZero {c : Config} {st : State} (hE : c.E = 1) (h : Reachable c st) :
    MarkersZero st := by
  obtain ⟨addrs, hacc⟩ := h
  exact accessAll_invariant c MarkersZero
    (fun st st1 addr hz ha => (accessData_direct_mapped c st st1 addr hE hz ha).1)
    addrs _ _ (initCache_markersZero c) hacc

/-- With `E = 1`, an access whose set holds a valid line with another tag is a
miss with one eviction. -/
theorem accessData_direct_mapped_conflict (c : Config) (st : State) (addr : Nat)
    (l : cache_line_t) (hE : c.E = 1)
    (hset : st.cache[setIndexOf c st.set_index_mask addr]? = some [l])
    (hv : l.valid = true) (ht : l.tag ≠ tagOf c addr) (h0 : l.lru = 0) :
    ∃ st1, accessData c st addr = some st1 ∧ st1.miss_count = st.miss_count + 1 ∧
      st1.eviction_count = st.eviction_count + 1 ∧ st1.hit_count = st.hit_count := by
  have hacc : accessData c st addr = some { st with
      cache := st.cache.set (setIndexOf c st.set_index_mask addr) [⟨true, tagOf c addr, 0⟩]
      hit_count := st.hit_count + 0
      miss_count := st.miss_count + 1
      eviction_count := st.eviction_count + 1 } := by
    unfold accessData
    simp only [hset, hE, List.length_singleton, if_true]
    rw [accessSet_direct_mapped _ l h0]
    simp [hv, ht]
  exact ⟨_, hacc, rfl, rfl, rfl⟩

/-- Direct-mapped conflict for `s ≤ 30`: with `E = 1`, in every reachable
state, two addresses with the same set index and different tags, accessed one
right after the other, make the second access a miss that also adds one to
`eviction_count` (and leaves `hit_count` alone). -/
theorem direct_mapped_conflict (c : Config) (st : State) (a1 a2 : Nat)
    (hE : c.E = 1) (hs : c.s ≤ 30) (_hsb : c.s + c.b < 64) (hreach : Reachable c st)
    (hidx : setIndexOf c st.set_index_mask a1 = setIndexOf c st.set_index_mask a2)
    (htag : tagOf c a1 ≠ tagOf c a2) :
    ∃ st1 st2, accessData c st a1 = some st1 ∧ accessData c st1 a2 = some st2 ∧
      st2.miss_count = st1.miss_count + 1 ∧
      st2.eviction_count = st1.eviction_count + 1 ∧
      st2.hit_count = st1.hit_count := by
  have hshape := hreach.wellShaped
  have hz := hreach.markersZero hE
  obtain ⟨_, hlt⟩ := setIndexOf_small_s c st a1 hs hshape
  obtain ⟨cs, hcs⟩ : ∃ cs, st.cache[setIndexOf c st.set_index_mask a1]? = some cs :=
    ⟨_, List.getElem?_eq_getElem hlt⟩
  have hlen : cs.length = c.E := hshape.2.1 _ (List.mem_iff_getElem?.2 ⟨_, hcs⟩)
  have hsome : ∃ st1, accessData c st a1 = some st1 := by
    unfold accessData
    simp only [hcs, hlen, if_true]
    exact ⟨_, rfl⟩
  obtain ⟨st1, h1⟩ := hsome
  obtain ⟨_, hmask, _, l1, hl1, hv1, ht1, h01⟩ := accessData_direct_mapped c st st1 a1 hE hz h1
  have hset2 : st1.cache[setIndexOf c st1.set_index_mask a2]? = some [l1] := by
    rw [hmask, ← hidx]
    exact hl1
  obtain ⟨st2, h2, e1, e2, e3⟩ :=
    accessData_direct_mapped_conflict c st1 a2 l1 hE hset2 hv1 (by rw [ht1]; exact htag) h01
  exact ⟨st1, st2, h1, h2, e1, e2, e3⟩

/-- The direct-mapped conflict at `s = 4, b = 4, E = 1`, in the fresh cache, for
the addresses 0x0 and 0x100 (both set index 0, tags 0 and 1). -/
theorem direct_mapped_conflict_witness :
    ((1 : Nat) = 1 ∧ 4 ≤ 30 ∧ 4 + 4 < 64) ∧
    setIndexOf ⟨4, 4, 1⟩ (initCache ⟨4, 4, 1⟩).set_index_mask 0x0 =
      setIndexOf ⟨4, 4, 1⟩ (initCache ⟨4, 4, 1⟩).set_index_mask 0x100 ∧
    tagOf ⟨4, 4, 1⟩ 0x0 ≠ tagOf ⟨4, 4, 1⟩ 0x100 ∧
    ∃ st1 st2, accessData ⟨4, 4, 1⟩ (initCache ⟨4, 4, 1⟩) 0x0 = some st1 ∧
      accessData ⟨4, 4, 1⟩ st1 0x100 = some st2 ∧
      st2.miss_count = st1.miss_count + 1 ∧
      st2.eviction_count = st1.eviction_count + 1 ∧
      st2.hit_count = st1.hit_count :=
  ⟨by decide, by decide, by decide,
    direct_mapped_conflict ⟨4, 4, 1⟩ (initCache ⟨4, 4, 1⟩) 0x0 0x100 rfl (by decide) (by decide)
      ⟨[], rfl⟩ (by decide) (by decide)⟩

/-- C9 (fails for large `s`): with `s = 54, b = 1, E = 1` (`s + b < 64`) the
addresses `2^55` and `2^55 + 2^56` have the same set index `2^54` and
different tags, but that index lies outside the array of sets of the fresh
cache (`main` leaves `S = 0`, so `initCache` creates no set): the first access
is undefined, so there is no pair of accesses whose second one is a miss with
an eviction. -/
theorem direct_mapped_out_of_range_at_54 :
    setIndexOf ⟨54, 1, 1⟩ (initCache ⟨54, 1, 1⟩).set_index_mask (2 ^ 55) =
      setIndexOf ⟨54, 1, 1⟩ (initCache ⟨54, 1, 1⟩).set_index_mask (2 ^ 55 + 2 ^ 56) ∧
    tagOf ⟨54, 1, 1⟩ (2 ^ 55) ≠ tagOf ⟨54, 1, 1⟩ (2 ^ 55 + 2 ^ 56) ∧
    Reachable ⟨54, 1, 1⟩ (initCache ⟨54, 1, 1⟩) ∧
    ¬ ∃ st1 st2, accessData ⟨54, 1, 1⟩ (initCache ⟨54, 1, 1⟩) (2 ^ 55) = some st1 ∧
      accessData ⟨54, 1, 1⟩ st1 (2 ^ 55 + 2 ^ 56) = some st2 ∧
      st2.miss_count = st1.miss_count + 1 ∧
      st2.eviction_count = st1.eviction_count + 1 := by
  have hm : (initCache ⟨54, 1, 1⟩).set_index_mask = 2 ^ 54 := by decide
  have hi : setIndexOf ⟨54, 1, 1⟩ (2 ^ 54) (2 ^ 55) = 2 ^ 54 := by decide
  have hi2 : setIndexOf ⟨54, 1, 1⟩ (2 ^ 54) (2 ^ 55 + 2 ^ 56) = 2 ^ 54 := by decide
  have hnone : accessData ⟨54, 1, 1⟩ (initCache ⟨54, 1, 1⟩) (2 ^ 55) = none := by
    apply accessData_eq_none_of_le
    rw [initCache_cache_length, numSets_large_s _ (by decide)]
    exact Nat.zero_le _
  refine ⟨by rw [hm, hi, hi2], by decide, ⟨[], rfl⟩, ?_⟩
  rintro ⟨st1, _, h1, _⟩
  rw [hnone] at h1
  exact absurd h1 (by simp)

/-! ## Scenario A -/

/-- C10 as stated does not hold: with `s = 4, b = 4, E = 1` the loads of
0x0, 0x10, 0x0 do not end with `(hits, misses, evictions) = (0, 2, 1)`. -/
theorem scenario_A_not_as_stated :
    ¬ ((replayRecords ⟨4, 4, 1⟩ (initCache ⟨4, 4, 1⟩)
        [⟨Op.L, 0x0⟩, ⟨Op.L, 0x10⟩, ⟨Op.L, 0x0⟩]).map counters = some (0, 2, 1)) := by
  decide

/-- C10, amended: with `s = 4, b = 4, E = 1` and a fresh cache, the loads of
0x0, 0x10, 0x0 end with `hit_count = 1`, `miss_count = 2`,
`eviction_count = 0`: address 0x10 has set index 1, not 0, so it does not
displace the block of address 0x0. -/
theorem scenario_A :
    (replayRecords ⟨4, 4, 1⟩ (initCache ⟨4, 4, 1⟩)
        [⟨Op.L, 0x0⟩, ⟨Op.L, 0x10⟩, ⟨Op.L, 0x0⟩]).map counters = some (1, 2, 0) ∧
    setIndexOf ⟨4, 4, 1⟩ (initCache ⟨4, 4, 1⟩).set_index_mask 0x10 = 1 ∧
    setIndexOf ⟨4, 4, 1⟩ (initCache ⟨4, 4, 1⟩).set_index_mask 0x0 = 0 :=
  ⟨by decide, by decide, by decide⟩

/-! ## What the loops leave alone -/

theorem refreshLine_map {β : Type} (g : cache_line_t → β)
    (hg : ∀ (l : cache_line_t) (r : Nat), g { l with lru := r } = g l) (flag : Nat)
    (l : cache_line_t) : g (refreshLine flag l) = g l := by
  unfold refreshLine
  split
  · exact hg l _
  · rfl

theorem modifyLine_map {β : Type} (g : cache_line_t → β) (f : cache_line_t → cache_line_t)
    (hf : ∀ l, g (f l) = g l) (cs : cache_set_t) (i : Nat) :
    (modifyLine f cs i).map g = cs.map g := by
  apply List.ext_getElem?
  intro j
  rw [List.getElem?_map, List.getElem?_map, modifyLine_getElem?]
  by_cases h : i = j
  · cases hc : cs[j]? with
    | none => simp [h]
    | some l => simp [h, hf]
  · simp [h]

theorem ptrRefreshLoop_map {β : Type} (g : cache_line_t → β)
    (hg : ∀ (l : cache_line_t) (r : Nat), g { l with lru := r } = g l) (flag : Nat) :
    ∀ (n start : Nat) (cs : cache_set_t), (ptrRefreshLoop flag n start cs).map g = cs.map g := by
  intro n
  induction n with
  | zero => intro start cs; rfl
  | succ n ih =>
    intro start cs
    simp only [ptrRefreshLoop]
    rw [ih, modifyLine_map g _ (refreshLine_map g hg flag)]

theorem ptrRefreshLRU_map {β : Type} (g : cache_line_t → β)
    (hg : ∀ (l : cache_line_t) (r : Nat), g { l with lru := r } = g l)
    (cs : cache_set_t) (a b flag : Nat) : (ptrRefreshLRU cs a b flag).map g = cs.map g :=
  ptrRefreshLoop_map g hg flag _ _ _

theorem arrRefreshLoop_map {β : Type} (g : cache_line_t → β)
    (hg : ∀ (l : cache_line_t) (r : Nat), g { l with lru := r } = g l) (flag : Nat)
    (arr : List Nat) :
    ∀ (n start : Nat) (cs : cache_set_t),
      (arrRefreshLoop flag arr n start cs).map g = cs.map g := by
  intro n
  induction n with
  | zero => intro start cs; rfl
  | succ n ih =>
    intro start cs
    simp only [arrRefreshLoop]
    cases h : arr[start]? with
    | none => rfl
    | some p =>
      simp only []
      rw [ih, modifyLine_map g _ (refreshLine_map g hg flag)]

theorem arrRefreshLRU_map {β : Type} (g : cache_line_t → β)
    (hg : ∀ (l : cache_line_t) (r : Nat), g { l with lru := r } = g l)
    (cs : cache_set_t) (arr : List Nat) (a b flag : Nat) :
    (arrRefreshLRU cs arr a b flag).map g = cs.map g :=
  arrRefreshLoop_map g hg flag arr _ _ _

theorem set_map_of_getElem? {β : Type} (g : cache_line_t → β) (cs : cache_set_t) (i : Nat)
    (l l1 : cache_line_t) (hl : cs[i]? = some l) (h : g l1 = g l) :
    (cs.set i l1).map g = cs.map g := by
  apply List.ext_getElem?
  intro j
  rw [List.getElem?_map, List.getElem?_map, List.getElem?_set]
  by_cases hij : i = j
  · subst hij
    have hlt : i < cs.length := (List.getElem?_eq_some.1 hl).1
    simp [hlt, hl, h]
  · simp [hij]

/-- The line search never changes a valid flag or a tag (any function of a
line that ignores the marker keeps its value on every line). -/
theorem findLoop_map {β : Type} (g : cache_line_t → β)
    (hg : ∀ (l : cache_line_t) (r : Nat), g { l with lru := r } = g l) (tag E : Nat) :
    ∀ (n i : Nat) (sc : Scan),
      (findLoop tag E n i sc).cache_set.map g = sc.cache_set.map g := by
  intro n
  induction n with
  | zero => intro i sc; rfl
  | succ n ih =>
    intro i sc
    simp only [findLoop]
    cases h : sc.cache_set[i]? with
    | none => rfl
    | some line =>
      simp only []
      by_cases hv : line.valid = true
      · by_cases ht : line.tag = tag
        · rw [if_pos hv, if_pos ht]
          simp only []
          rw [ptrRefreshLRU_map g hg, arrRefreshLRU_map g hg,
            set_map_of_getElem? g _ i line _ h (hg line 0)]
        · simp [hv, ht, ih]
      · simp [hv, ih]

/-- The eviction loop never changes a valid flag (any function of a line that
ignores marker and tag keeps its value on every line). -/
theorem evictLoop_map {β : Type} (g : cache_line_t → β)
    (hg : ∀ (l : cache_line_t) (r t : Nat), g { l with lru := r, tag := t } = g l)
    (hg2 : ∀ (l : cache_line_t) (r : Nat), g { l with lru := r } = g l) (tag E : Nat) :
    ∀ (n i : Nat) (cs : cache_set_t), (evictLoop tag E n i cs).map g = cs.map g := by
  intro n
  induction n with
  | zero => intro i cs; rfl
  | succ n ih =>
    intro i cs
    simp only [evictLoop]
    cases h : cs[i]? with
    | none => rfl
    | some line =>
      simp only []
      by_cases hl : line.lru = E - 1
      · rw [if_pos hl]
        rw [ih, ptrRefreshLRU_map g hg2, ptrRefreshLRU_map g hg2,
          set_map_of_getElem? g _ i line _ h (hg line 0 tag)]
      · simp [hl, ih]

/-! ## The three outcomes of an access -/

theorem accessSet_outcome (E tag : Nat) (cs : cache_set_t) :
    (accessSet E tag cs).2 = (1, 0, 0) ∨ (accessSet E tag cs).2 = (0, 1, 0) ∨
      (accessSet E tag cs).2 = (0, 1, 1) := by
  unfold accessSet
  simp only []
  split
  · exact Or.inl rfl
  · split
    · exact Or.inr (Or.inl rfl)
    · exact Or.inr (Or.inr rfl)

theorem accessData_of_set (c : Config) (st : State) (addr : Nat) (cs : cache_set_t)
    (hset : st.cache[setIndexOf c st.set_index_mask addr]? = some cs) (hlen : cs.length = c.E) :
    accessData c st addr = some { st with
      cache := st.cache.set (setIndexOf c st.set_index_mask addr)
        (accessSet c.E (tagOf c addr) cs).1
      hit_count := st.hit_count + (accessSet c.E (tagOf c addr) cs).2.1
      miss_count := st.miss_count + (accessSet c.E (tagOf c addr) cs).2.2.1
      eviction_count := st.eviction_count + (accessSet c.E (tagOf c addr) cs).2.2.2 } := by
  unfold accessData
  simp only [hset, hlen, if_true]

theorem accessData_eq_some (c : Config) (st st1 : State) (addr : Nat)
    (h : accessData c st addr = some st1) :
    ∃ cs, st.cache[setIndexOf c st.set_index_mask addr]? = some cs ∧ cs.length = c.E ∧
      st1 = { st with
        cache := st.cache.set (setIndexOf c st.set_index_mask addr)
          (accessSet c.E (tagOf c addr) cs).1
        hit_count := st.hit_count + (accessSet c.E (tagOf c addr) cs).2.1
        miss_count := st.miss_count + (accessSet c.E (tagOf c addr) cs).2.2.1
        eviction_count := st.eviction_count + (accessSet c.E (tagOf c addr) cs).2.2.2 } := by
  unfold accessData at h
  simp only [] at h
  split at h
  · exact absurd h (by simp)
  · rename_i cs hset
    split at h
    · rename_i hlen
      injection h with h
      exact ⟨cs, hset, hlen, h.symm⟩
    · exact absurd h (by simp)

/-! ## The line search when a valid line holds the tag -/

theorem findLoop_hit_flag (tag E : Nat) :
    ∀ (n i : Nat) (sc : Scan), i + n ≤ sc.cache_set.length →
      (∃ (j : Nat) (l : cache_line_t), i ≤ j ∧ j < i + n ∧ sc.cache_set[j]? = some l ∧
        l.valid = true ∧ l.tag = tag) →
      (findLoop tag E n i sc).hit_flag = true := by
  intro n
  induction n with
  | zero =>
    intro i sc _ h
    obtain ⟨j, _, h1, h2, _⟩ := h
    omega
  | succ n ih =>
    intro i sc hlen h
    obtain ⟨j, l, h1, h2, h3, h4, h5⟩ := h
    have hi : i < sc.cache_set.length := by omega
    have hget : sc.cache_set[i]? = some sc.cache_set[i] := List.getElem?_eq_getElem hi
    simp only [findLoop, hget]
    by_cases hv : (sc.cache_set[i]).valid = true
    · by_cases ht : (sc.cache_set[i]).tag = tag
      · rw [if_pos hv, if_pos ht]
      · rw [if_pos hv, if_neg ht]
        have hne : i ≠ j := by
          intro e
          subst e
          rw [hget] at h3
          injection h3 with h3
          exact ht (h3 ▸ h5)
        exact ih (i + 1) _ (by simp only []; omega) ⟨j, l, by omega, by omega, h3, h4, h5⟩
    · rw [if_neg hv]
      have hne : i ≠ j := by
        intro e
        subst e
        rw [hget] at h3
        injection h3 with h3
        exact hv (h3 ▸ h4)
      exact ih (i + 1) _ (by simp only []; omega) ⟨j, l, by omega, by omega, h3, h4, h5⟩

/-- The line search finds the first valid line `k` that holds the tag, sets
its marker to 0 and refreshes the other lines. -/
theorem findLoop_hit (tag E k : Nat) :
    ∀ (n i : Nat) (sc : Scan) (lk : cache_line_t), i ≤ k → k < i + n →
      i + n ≤ sc.cache_set.length → sc.cache_set[k]? = some lk → lk.valid = true →
      lk.tag = tag →
      (∀ (j : Nat) (l : cache_line_t), i ≤ j → j < k → sc.cache_set[j]? = some l →
        l.valid = true → l.tag ≠ tag) →
      findLoop tag E n i sc =
        { cache_set :=
            ptrRefreshLRU
              (arrRefreshLRU (sc.cache_set.set k { lk with lru := 0 })
                (sc.cache_valid_subset ++
                  (List.range' i (k - i)).filter (fun j => validAt sc.cache_set j) ++ [k]) 0
                ((sc.cache_valid_subset ++
                  (List.range' i (k - i)).filter (fun j => validAt sc.cache_set j) ++ [k]).length
                    - 1) lk.lru)
              (k + 1) E lk.lru
          cache_free_subset :=
            sc.cache_free_subset ++
              (List.range' i (k - i)).filter (fun j => !validAt sc.cache_set j)
          cache_valid_subset :=
            sc.cache_valid_subset ++
              (List.range' i (k - i)).filter (fun j => validAt sc.cache_set j) ++ [k]
          hit_flag := true } := by
  intro n
  induction n with
  | zero =>
    intro i sc lk h1 h2
    omega
  | succ n ih =>
    intro i sc lk h1 h2 hlen hk hv ht hfirst
    by_cases hik : i = k
    · subst hik
      simp only [findLoop, hk]
      rw [if_pos hv, if_pos ht]
      simp
    · have hi : i < sc.cache_set.length := by omega
      have hget : sc.cache_set[i]? = some sc.cache_set[i] := List.getElem?_eq_getElem hi
      have hsplit : k - i = (k - (i + 1)) + 1 := by omega
      simp only [findLoop, hget]
      by_cases hvi : (sc.cache_set[i]).valid = true
      · have hti := hfirst i _ (le_refl i) (by omega) hget hvi
        have hva : validAt sc.cache_set i = true := by simp [validAt, hget, hvi]
        rw [if_pos hvi, if_neg hti]
        rw [ih (i + 1) { sc with cache_valid_subset := sc.cache_valid_subset ++ [i] } lk
          (by omega) (by omega) (by simp only []; omega) hk hv ht
          (fun j l hj1 hj2 => hfirst j l (by omega) hj2)]
        simp [hsplit, List.range'_succ, List.filter_cons, hva]
      · have hva : validAt sc.cache_set i = false := by simp [validAt, hget, hvi]
        rw [if_neg hvi]
        rw [ih (i + 1) { sc with cache_free_subset := sc.cache_free_subset ++ [i] } lk
          (by omega) (by omega) (by simp only []; omega) hk hv ht
          (fun j l hj1 hj2 => hfirst j l (by omega) hj2)]
        simp [hsplit, List.range'_succ, List.filter_cons, hva]

theorem mem_filter_validAt (cs : cache_set_t) (k j : Nat) :
    j ∈ (List.range' 0 k).filter (fun j => validAt cs j) ↔ j < k ∧ validAt cs j = true := by
  simp [List.mem_filter, List.mem_range'_1]

/-- Contents of the set after a hit on line `k`: line `k` gets marker 0 and
every other line is refreshed with the old marker of line `k`. -/
theorem hitSet_getElem? (E : Nat) (cs : cache_set_t) (k : Nat) (lk : cache_line_t)
    (hlen : cs.length = E) (hk : cs[k]? = some lk) (j : Nat) :
    (ptrRefreshLRU
        (arrRefreshLRU (cs.set k { lk with lru := 0 })
          ((List.range' 0 k).filter (fun j => validAt cs j) ++ [k]) 0
          (((List.range' 0 k).filter (fun j => validAt cs j) ++ [k]).length - 1) lk.lru)
        (k + 1) E lk.lru)[j]? =
      if j = k then some { lk with lru := 0 } else (cs[j]?).map (refreshLine lk.lru) := by
  have hklt : k < cs.length := (List.getElem?_eq_some.1 hk).1
  rw [ptrRefreshLRU_getElem?]
  unfold arrRefreshLRU
  rw [arrRefreshLoop_eq_foldl]
  simp only [Nat.sub_zero, List.drop_zero, List.length_append, List.length_singleton,
    Nat.add_sub_cancel, List.take_left']
  rw [foldl_modifyLine_getElem? _ _ _ _ ((List.nodup_range' 0 k).filter _)]
  simp only [mem_filter_validAt]
  by_cases hjk : j = k
  · subst hjk
    have h1 : ¬ (j + 1 ≤ j ∧ j < E) := by omega
    have h2 : ¬ (j < j ∧ validAt cs j = true) := by omega
    simp [h1, h2, List.getElem?_set, hklt]
  · have hset : (cs.set k { lk with lru := 0 })[j]? = cs[j]? :=
      List.getElem?_set_ne (fun e => hjk e.symm)
    rw [hset]
    by_cases hlt : j < k
    · have h1 : ¬ (k + 1 ≤ j ∧ j < E) := by omega
      by_cases hv : validAt cs j = true
      · simp [h1, hjk, hlt, hv]
      · have hjlen : j < cs.length := by omega
        have hget : cs[j]? = some cs[j] := List.getElem?_eq_getElem hjlen
        have hinv : (cs[j]).valid = false := by simpa [validAt, hget] using hv
        simp [h1, hjk, hv, hget, refreshLine_invalid _ _ hinv]
    · have h2 : ¬ (j < k ∧ validAt cs j = true) := by omega
      by_cases hjE : j < E
      · have h1 : k + 1 ≤ j ∧ j < E := by omega
        simp [h1, h2, hjk]
      · have h1 : ¬ (k + 1 ≤ j ∧ j < E) := by omega
        have hnone : cs[j]? = none := List.getElem?_eq_none (by omega)
        simp [h1, h2, hjk, hnone]

/-- An access whose tag is held by a valid line is a hit: the counters change
by `(1, 0, 0)` and the set is touched at the first such line `k`, with the old
marker of that line as threshold. -/
theorem accessSet_hit (E tag : Nat) (cs : cache_set_t) (hlen : cs.length = E)
    (h : ∃ l ∈ cs, l.valid = true ∧ l.tag = tag) :
    (accessSet E tag cs).2 = (1, 0, 0) ∧
      ∃ (k : Nat) (lk : cache_line_t), cs[k]? = some lk ∧ lk.valid = true ∧ lk.tag = tag ∧
        Touched lk.lru k cs (accessSet E tag cs).1 := by
  classical
  have hex : ∃ k : Nat, ∃ l : cache_line_t, cs[k]? = some l ∧ l.valid = true ∧ l.tag = tag := by
    obtain ⟨l, hl, hv, ht⟩ := h
    obtain ⟨k, hk⟩ := List.mem_iff_getElem?.1 hl
    exact ⟨k, l, hk, hv, ht⟩
  obtain ⟨lk, hk, hv, ht⟩ := Nat.find_spec hex
  have hmin : ∀ (j : Nat) (l : cache_line_t), 0 ≤ j → j < Nat.find hex → cs[j]? = some l →
      l.valid = true → l.tag ≠ tag := by
    intro j l _ hj hjl hlv hlt
    exact Nat.find_min hex hj ⟨l, hjl, hlv, hlt⟩
  have hklt : Nat.find hex < cs.length := (List.getElem?_eq_some.1 hk).1
  have hfind := findLoop_hit tag E (Nat.find hex) E 0 ⟨cs, [], [], false⟩ lk (Nat.zero_le _)
    (by omega) (by simp only []; omega) hk hv ht hmin
  simp only [List.nil_append, Nat.sub_zero] at hfind
  have hacc : accessSet E tag cs =
      (ptrRefreshLRU
        (arrRefreshLRU (cs.set (Nat.find hex) { lk with lru := 0 })
          ((List.range' 0 (Nat.find hex)).filter (fun j => validAt cs j) ++ [Nat.find hex]) 0
          (((List.range' 0 (Nat.find hex)).filter (fun j => validAt cs j) ++
            [Nat.find hex]).length - 1) lk.lru)
        (Nat.find hex + 1) E lk.lru, 1, 0, 0) := by
    unfold accessSet
    simp only [hfind, if_true]
  rw [hacc]
  refine ⟨rfl, Nat.find hex, lk, hk, hv, ht, ⟨{ lk with lru := 0 }, ?_, hv, rfl⟩, ?_⟩
  · simp only []
    rw [hitSet_getElem? E cs _ lk hlen hk]
    simp
  · intro j hj
    simp only []
    rw [hitSet_getElem? E cs _ lk hlen hk]
    simp [hj]

/-! ## Markers of the valid lines -/

theorem hasMarker_iff (cs : cache_set_t) (v : Nat) :
    HasMarker cs v ↔ ∃ (j : Nat) (l : cache_line_t), cs[j]? = some l ∧ l.valid = true ∧
      l.lru = v := by
  constructor
  · rintro ⟨l, hl, hv, hm⟩
    obtain ⟨j, hj⟩ := List.mem_iff_getElem?.1 hl
    exact ⟨j, l, hj, hv, hm⟩
  · rintro ⟨j, l, hj, hv, hm⟩
    exact ⟨l, List.mem_iff_getElem?.2 ⟨j, hj⟩, hv, hm⟩

/-- Without gaps, a marker that occurs is smaller than the number of lines. -/
theorem hasMarker_lt_length (cs : cache_set_t) (hng : NoGaps cs) (v : Nat)
    (hv : HasMarker cs v) : v < cs.length := by
  have hsub : Finset.range (v + 1) ⊆
      ((cs.filter (fun l => l.valid)).map (fun l => l.lru)).toFinset := by
    intro u hu
    have hu2 : u < v + 1 := Finset.mem_range.1 hu
    have hm : HasMarker cs u := by
      by_cases huv : u = v
      · exact huv ▸ hv
      · exact hng v hv u (by omega)
    obtain ⟨l, hl, hlv, hlu⟩ := hm
    rw [List.mem_toFinset, List.mem_map]
    exact ⟨l, List.mem_filter.2 ⟨hl, by simpa using hlv⟩, hlu⟩
  have h1 := Finset.card_le_card hsub
  rw [Finset.card_range] at h1
  have h2 := List.toFinset_card_le ((cs.filter (fun l => l.valid)).map (fun l => l.lru))
  have h3 : ((cs.filter (fun l => l.valid)).map (fun l => l.lru)).length ≤ cs.length := by
    rw [List.length_map]
    exact List.length_filter_le _ _
  omega

theorem refreshLine_lru_lt (h : Nat) (l : cache_line_t) (hl : l.lru < ULL) :
    (refreshLine h l).lru < ULL := by
  unfold refreshLine
  split
  · exact Nat.mod_lt _ (by unfold ULL; exact Nat.two_pow_pos 64)
  · exact hl

theorem refreshLine_lru_of_le (h : Nat) (l : cache_line_t) (hv : l.valid = true)
    (hle : l.lru ≤ h) : (refreshLine h l).lru = (l.lru + 1) % ULL := by
  simp [refreshLine, hv, hle, lru_counter]

theorem refreshLine_of_gt (h : Nat) (l : cache_line_t) (hgt : h < l.lru) :
    refreshLine h l = l := by
  have : ¬ l.lru ≤ h := by omega
  simp [refreshLine, this]

theorem touched_lru_lt (h k : Nat) (cs ns : cache_set_t) (ht : Touched h k cs ns)
    (hlt : ∀ (j : Nat) (l : cache_line_t), cs[j]? = some l → l.lru < ULL) :
    ∀ (j : Nat) (l : cache_line_t), ns[j]? = some l → l.lru < ULL := by
  intro j l hj
  by_cases hjk : j = k
  · obtain ⟨lk, hk, _, h0⟩ := ht.1
    subst hjk
    rw [hk] at hj
    injection hj with hj
    rw [← hj, h0]
    unfold ULL
    exact Nat.two_pow_pos 64
  · rw [ht.2 j hjk] at hj
    cases hc : cs[j]? with
    | none => simp [hc] at hj
    | some l0 =>
      simp only [hc, Option.map_some', Option.some.injEq] at hj
      rw [← hj]
      exact refreshLine_lru_lt h l0 (hlt j l0 hc)

/-- Refresh with threshold 0 around a line that was invalid, or that held the
largest marker: the markers keep having no gaps. -/
theorem noGaps_touched_zero (k : Nat) (cs ns : cache_set_t) (ht : Touched 0 k cs ns)
    (hng : NoGaps cs)
    (hmax : ∀ lk : cache_line_t, cs[k]? = some lk → lk.valid = true →
      ∀ v, HasMarker cs v → v ≤ lk.lru) :
    NoGaps ns := by
  intro v hv u huv
  rw [hasMarker_iff] at hv ⊢
  obtain ⟨j, l1, hj, hl1v, hl1m⟩ := hv
  obtain ⟨lk, hk, hkv, hk0⟩ := ht.1
  by_cases hu0 : u = 0
  · exact ⟨k, lk, hk, hkv, by rw [hk0, hu0]⟩
  · have hjk : j ≠ k := by
      intro e
      subst e
      rw [hk] at hj
      injection hj with hj
      rw [← hj, hk0] at hl1m
      omega
    rw [ht.2 j hjk] at hj
    cases hc : cs[j]? with
    | none => simp [hc] at hj
    | some l =>
      simp only [hc, Option.map_some', Option.some.injEq] at hj
      have hlv : l.valid = true := by rw [← refreshLine_valid 0 l, hj]; exact hl1v
      have hw : l.lru = v := by
        by_cases hle : l.lru ≤ 0
        · have h1 := refreshLine_lru_of_le 0 l hlv hle
          rw [hj, hl1m] at h1
          have h0 : l.lru = 0 := by omega
          rw [h0] at h1
          simp [ULL] at h1
          omega
        · have h1 := refreshLine_of_gt 0 l (by omega)
          rw [h1] at hj
          rw [hj]
          exact hl1m
      have hvold : HasMarker cs v := (hasMarker_iff cs v).2 ⟨j, l, hc, hlv, hw⟩
      have huold := hng v hvold u huv
      rw [hasMarker_iff] at huold
      obtain ⟨j2, l2, hj2, hl2v, hl2m⟩ := huold
      have hj2k : j2 ≠ k := by
        intro e
        subst e
        have := hmax l2 hj2 hl2v v hvold
        omega
      refine ⟨j2, l2, ?_, hl2v, hl2m⟩
      rw [ht.2 j2 hj2k, hj2, Option.map_some', refreshLine_of_gt 0 l2 (by omega)]

/-- Refresh with the old marker of a valid line as threshold (a hit): the
markers keep having no gaps. -/
theorem noGaps_touched_hit (k : Nat) (cs ns : cache_set_t) (lk : cache_line_t)
    (hk : cs[k]? = some lk) (ht : Touched lk.lru k cs ns) (hng : NoGaps cs)
    (hlt : ∀ (j : Nat) (l : cache_line_t), cs[j]? = some l → l.lru < ULL) :
    NoGaps ns := by
  intro v hv u huv
  rw [hasMarker_iff] at hv ⊢
  obtain ⟨j, l1, hj, hl1v, hl1m⟩ := hv
  obtain ⟨lk1, hk1, hkv, hk0⟩ := ht.1
  by_cases hu0 : u = 0
  · exact ⟨k, lk1, hk1, hkv, by rw [hk0, hu0]⟩
  · have hjk : j ≠ k := by
      intro e
      subst e
      rw [hk1] at hj
      injection hj with hj
      rw [← hj, hk0] at hl1m
      omega
    rw [ht.2 j hjk] at hj
    cases hc : cs[j]? with
    | none => simp [hc] at hj
    | some l =>
      simp only [hc, Option.map_some', Option.some.injEq] at hj
      have hlv : l.valid = true := by rw [← refreshLine_valid lk.lru l, hj]; exact hl1v
      have hlULL := hlt j l hc
      have hkULL := hlt k lk hk
      -- a line with marker `u - 1 < lk.lru` is refreshed to marker `u`
      have bump : u ≤ lk.lru → HasMarker cs (u - 1) →
          ∃ (j : Nat) (l : cache_line_t), ns[j]? = some l ∧ l.valid = true ∧ l.lru = u := by
        intro hule hm
        rw [hasMarker_iff] at hm
        obtain ⟨j2, l2, hj2, hl2v, hl2m⟩ := hm
        have hj2k : j2 ≠ k := by
          intro e
          subst e
          rw [hk] at hj2
          injection hj2 with hj2
          rw [← hj2] at hl2m
          omega
        refine ⟨j2, refreshLine lk.lru l2, ?_, ?_, ?_⟩
        · rw [ht.2 j2 hj2k, hj2, Option.map_some']
        · rw [refreshLine_valid]; exact hl2v
        · rw [refreshLine_lru_of_le lk.lru l2 hl2v (by omega), hl2m]
          have : u - 1 + 1 = u := by omega
          rw [this]
          exact Nat.mod_eq_of_lt (by omega)
      by_cases hle : l.lru ≤ lk.lru
      · have h1 := refreshLine_lru_of_le lk.lru l hlv hle
        rw [hj, hl1m] at h1
        have hnowrap : l.lru + 1 < ULL := by
          by_contra hcon
          have heq : l.lru + 1 = ULL := by omega
          rw [heq, Nat.mod_self] at h1
          omega
        rw [Nat.mod_eq_of_lt hnowrap] at h1
        have hvold : HasMarker cs l.lru := (hasMarker_iff cs _).2 ⟨j, l, hc, hlv, rfl⟩
        exact bump (by omega) (hng l.lru hvold (u - 1) (by omega))
      · have h1 := refreshLine_of_gt lk.lru l (by omega)
        rw [h1] at hj
        have hw : l.lru = v := by rw [hj]; exact hl1m
        have hvold : HasMarker cs v := (hasMarker_iff cs v).2 ⟨j, l, hc, hlv, hw⟩
        by_cases hule : u ≤ lk.lru
        · exact bump hule (hng v hvold (u - 1) (by omega))
        · have huold := hng v hvold u huv
          rw [hasMarker_iff] at huold
          obtain ⟨j2, l2, hj2, hl2v, hl2m⟩ := huold
          have hj2k : j2 ≠ k := by
            intro e
            subst e
            rw [hk] at hj2
            injection hj2 with hj2
            rw [← hj2] at hl2m
            omega
          refine ⟨j2, l2, ?_, hl2v, hl2m⟩
          rw [ht.2 j2 hj2k, hj2, Option.map_some', refreshLine_of_gt lk.lru l2 (by omega)]

/-! ## The three updates of a set keep the markers without gaps -/

theorem missFree_touched (tag : Nat) (cs : cache_set_t) (p : Nat) (hp : p < cs.length) :
    Touched 0 p cs (modifyLine (installLine tag) (cs.map (refreshLine 0)) p) := by
  have hget : cs[p]? = some cs[p] := List.getElem?_eq_getElem hp
  constructor
  · refine ⟨installLine tag (refreshLine 0 cs[p]), ?_, rfl, rfl⟩
    rw [modifyLine_getElem?, List.getElem?_map, hget]
    simp
  · intro j hj
    rw [modifyLine_getElem?, List.getElem?_map]
    have hne : ¬ p = j := fun e => hj e.symm
    simp [hne]

/-- When no valid line holds the tag and every line is valid, the access runs
the eviction loop. -/
theorem accessSet_evict (E tag : Nat) (cs : cache_set_t) (hlen : cs.length = E)
    (habsent : ∀ (j : Nat) (l : cache_line_t), cs[j]? = some l → l.valid = true → l.tag ≠ tag)
    (hfull : ∀ j, j < E → validAt cs j = true) :
    accessSet E tag cs = (evictLoop tag E E 0 cs, 0, 1, 1) := by
  subst hlen
  have hnil : (List.range' 0 cs.length).filter (fun j => !validAt cs j) = [] := by
    rw [List.filter_eq_nil_iff]
    intro j hj
    have hj2 : j < cs.length := by
      have := List.mem_range'_1.1 hj
      omega
    simp [hfull j hj2]
  unfold accessSet
  rw [findLoop_miss tag cs.length cs.length 0 ⟨cs, [], [], false⟩ (by simp) (by simpa using habsent)]
  simp only [List.nil_append, hnil, Bool.false_eq_true, if_false]

theorem evictStep_getElem? (tag E : Nat) (cs : cache_set_t) (i : Nat) (line : cache_line_t)
    (hlen : cs.length = E) (hi : cs[i]? = some line) (j : Nat) :
    (ptrRefreshLRU (ptrRefreshLRU (cs.set i { line with lru := 0, tag := tag }) 0 i 0)
        (i + 1) E 0)[j]? =
      if j = i then some { line with lru := 0, tag := tag } else (cs[j]?).map (refreshLine 0) := by
  have hilt : i < cs.length := (List.getElem?_eq_some.1 hi).1
  rw [ptrRefreshLRU_getElem?, ptrRefreshLRU_getElem?, List.getElem?_set]
  by_cases hji : j = i
  · subst hji
    have h1 : ¬ (j + 1 ≤ j ∧ j < E) := by omega
    have h2 : ¬ (0 ≤ j ∧ j < j) := by omega
    simp [h1, h2, hilt]
  · have hne : ¬ i = j := fun e => hji e.symm
    by_cases hlt : j < i
    · have h1 : ¬ (i + 1 ≤ j ∧ j < E) := by omega
      have h2 : 0 ≤ j ∧ j < i := by omega
      simp [h1, h2, hne, hji]
    · have h2 : ¬ (0 ≤ j ∧ j < i) := by omega
      by_cases hjE : j < E
      · have h1 : i + 1 ≤ j ∧ j < E := by omega
        simp [h1, hlt, hne, hji]
      · have h1 : ¬ (i + 1 ≤ j ∧ j < E) := by omega
        have hnone : cs[j]? = none := List.getElem?_eq_none (by omega)
        simp [h1, hlt, hne, hji, hnone]

theorem evictLoop_invariant (tag E : Nat) (P : cache_set_t → Prop)
    (hstep : ∀ (i : Nat) (cs : cache_set_t) (line : cache_line_t), P cs → cs[i]? = some line →
      line.lru = E - 1 →
      P (ptrRefreshLRU (ptrRefreshLRU (cs.set i { line with lru := 0, tag := tag }) 0 i 0)
        (i + 1) E 0)) :
    ∀ (n i : Nat) (cs : cache_set_t), P cs → P (evictLoop tag E n i cs) := by
  intro n
  induction n with
  | zero => intro i cs h; exact h
  | succ n ih =>
    intro i cs h
    simp only [evictLoop]
    cases hc : cs[i]? with
    | none => exact h
    | some line =>
      simp only []
      by_cases hl : line.lru = E - 1
      · rw [if_pos hl]
        exact ih _ _ (hstep i cs line h hc hl)
      · rw [if_neg hl]
        exact ih _ _ h

/-- Every path of `accessData` keeps the markers of the selected set without
gaps. -/
theorem accessSet_markersOk (E tag : Nat) (cs : cache_set_t) (hlen : cs.length = E)
    (hok : MarkersOk cs) : MarkersOk (accessSet E tag cs).1 := by
  obtain ⟨hng, hlt⟩ := hok
  by_cases hmatch : ∃ l ∈ cs, l.valid = true ∧ l.tag = tag
  · obtain ⟨_, k, lk, hk, _, _, ht⟩ := accessSet_hit E tag cs hlen hmatch
    exact ⟨noGaps_touched_hit k cs _ lk hk ht hng hlt, touched_lru_lt _ k cs _ ht hlt⟩
  · have habsent : ∀ (j : Nat) (l : cache_line_t), cs[j]? = some l → l.valid = true →
        l.tag ≠ tag := by
      intro j l hj hv htag
      exact hmatch ⟨l, List.mem_iff_getElem?.2 ⟨j, hj⟩, hv, htag⟩
    by_cases hfree : ∃ j, j < E ∧ validAt cs j = false
    · obtain ⟨p, hp, hpinv, _, hacc⟩ := accessSet_miss_free E tag cs hlen habsent hfree
      rw [hacc]
      have ht := missFree_touched tag cs p (by omega)
      refine ⟨noGaps_touched_zero p cs _ ht hng ?_, touched_lru_lt _ p cs _ ht hlt⟩
      intro lp hlp hlpv
      simp [validAt, hlp, hlpv] at hpinv
    · have hfull : ∀ j, j < E → validAt cs j = true := by
        intro j hj
        by_contra hcon
        exact hfree ⟨j, hj, by simpa using hcon⟩
      rw [accessSet_evict E tag cs hlen habsent hfull]
      have hinv := evictLoop_invariant tag E
        (fun s => s.length = E ∧ (∀ (j : Nat) (l : cache_line_t), s[j]? = some l →
          l.valid = true) ∧ MarkersOk s)
        (by
          intro i s line ⟨hslen, hsvalid, hsng, hslt⟩ hi hl
          have hilt : i < s.length := (List.getElem?_eq_some.1 hi).1
          have ht : Touched 0 i s (ptrRefreshLRU (ptrRefreshLRU
              (s.set i { line with lru := 0, tag := tag }) 0 i 0) (i + 1) E 0) := by
            constructor
            · refine ⟨{ line with lru := 0, tag := tag }, ?_, hsvalid i line hi, rfl⟩
              rw [evictStep_getElem? tag E s i line hslen hi]
              simp
            · intro j hj
              rw [evictStep_getElem? tag E s i line hslen hi]
              simp [hj]
          refine ⟨by simp [ptrRefreshLRU_length, hslen], ?_, ?_, touched_lru_lt _ i s _ ht hslt⟩
          · intro j l hj
            by_cases hji : j = i
            · obtain ⟨lk, hk, hkv, _⟩ := ht.1
              subst hji
              rw [hk] at hj
              injection hj with hj
              exact hj ▸ hkv
            · rw [ht.2 j hji] at hj
              cases hc : s[j]? with
              | none => simp [hc] at hj
              | some l0 =>
                simp only [hc, Option.map_some', Option.some.injEq] at hj
                rw [← hj, refreshLine_valid]
                exact hsvalid j l0 hc
          · refine noGaps_touched_zero i s _ ht hsng ?_
            intro lk hlk _ v hv
            rw [hi] at hlk
            injection hlk with hlk
            have hb := hasMarker_lt_length s hsng v hv
            rw [← hlk, hl]
            omega)
        E 0 cs ⟨hlen, ?_, hng, hlt⟩
      · exact hinv.2.2
      · intro j l hj
        have hjlt : j < E := hlen ▸ (List.getElem?_eq_some.1 hj).1
        have := hfull j hjlt
        simpa [validAt, hj] using this

/-! ## Markers in the reachable states -/

theorem initCache_markersOk (c : Config) :
    ∀ cs ∈ (initCache c).cache, cs.length = c.E ∧ MarkersOk cs := by
  intro cs hcs
  simp only [initCache] at hcs
  have hrep := List.eq_of_mem_replicate hcs
  subst hrep
  refine ⟨by simp, ?_, ?_⟩
  · rintro v ⟨l, hl, hv, _⟩
    rw [List.eq_of_mem_replicate hl] at hv
    exact absurd hv (by simp)
  · intro j l hj
    have hl : l ∈ List.replicate c.E (⟨false, 0, 0⟩ : cache_line_t) :=
      List.mem_iff_getElem?.2 ⟨j, hj⟩
    rw [List.eq_of_mem_replicate hl]
    exact Nat.two_pow_pos 64

theorem Reachable.markersOk {c : Config} {st : State} (h : Reachable c st) :
    ∀ cs ∈ st.cache, cs.length = c.E ∧ MarkersOk cs := by
  obtain ⟨addrs, hacc⟩ := h
  refine accessAll_invariant c (fun st => ∀ cs ∈ st.cache, cs.length = c.E ∧ MarkersOk cs)
    ?_ addrs _ _ (initCache_markersOk c) hacc
  intro st st1 addr hst ha
  obtain ⟨cs, hset, hlen, rfl⟩ := accessData_eq_some c st st1 addr ha
  intro cs1 hcs1
  rcases List.mem_or_eq_of_mem_set hcs1 with hmem | heq
  · exact hst cs1 hmem
  · rw [heq]
    have hcs := hst cs (List.mem_iff_getElem?.2 ⟨_, hset⟩)
    exact ⟨by rw [accessSet_length]; exact hlen, accessSet_markersOk c.E _ cs hlen hcs.2⟩

/-- C20: in every reachable state, in every set, the marker of every valid
line is smaller than `E`; below the marker of a valid line every value is the
marker of some valid line; and when the set has a valid line, the markers of
its valid lines are exactly the values `0, ..., m` for some `m < E`. -/
theorem lru_markers_bounded_without_gaps (c : Config) (st : State) (hreach : Reachable c st) :
    ∀ cs ∈ st.cache,
      (∀ l ∈ cs, l.valid = true → l.lru < c.E) ∧
      (∀ l ∈ cs, l.valid = true → ∀ u, u < l.lru → ∃ l1 ∈ cs, l1.valid = true ∧ l1.lru = u) ∧
      ((∃ l ∈ cs, l.valid = true) →
        ∃ m, m < c.E ∧ ∀ u, (∃ l ∈ cs, l.valid = true ∧ l.lru = u) ↔ u ≤ m) := by
  classical
  intro cs hcs
  obtain ⟨hlen, hng, _⟩ := hreach.markersOk cs hcs
  have hbound : ∀ v, HasMarker cs v → v < c.E := fun v hv =>
    hlen ▸ hasMarker_lt_length cs hng v hv
  refine ⟨fun l hl hv => hbound l.lru ⟨l, hl, hv, rfl⟩,
    fun l hl hv u hu => hng l.lru ⟨l, hl, hv, rfl⟩ u hu, ?_⟩
  rintro ⟨l, hl, hv⟩
  have hm0 : HasMarker cs l.lru := ⟨l, hl, hv, rfl⟩
  have hspec : HasMarker cs (Nat.findGreatest (HasMarker cs) c.E) :=
    Nat.findGreatest_spec (le_of_lt (hbound _ hm0)) hm0
  refine ⟨Nat.findGreatest (HasMarker cs) c.E, hbound _ hspec, ?_⟩
  intro u
  constructor
  · intro hu
    exact Nat.le_findGreatest (le_of_lt (hbound u hu)) hu
  · intro hu
    by_cases heq : u = Nat.findGreatest (HasMarker cs) c.E
    · rw [heq]
      exact hspec
    · exact hng _ hspec u (by omega)

/-- Witness for C20: `s = 1, b = 1, E = 3` after loads of 0, 4, 8; the markers
of set 0 are 1, 1, 0. -/
theorem lru_markers_bounded_without_gaps_witness :
    Reachable ⟨1, 1, 3⟩ ⟨[[⟨true, 0, 1⟩, ⟨true, 1, 1⟩, ⟨true, 2, 0⟩],
      [⟨false, 0, 0⟩, ⟨false, 0, 0⟩, ⟨false, 0, 0⟩]], 1, 3, 0, 0⟩ ∧
    ∀ cs ∈ ([[⟨true, 0, 1⟩, ⟨true, 1, 1⟩, ⟨true, 2, 0⟩],
        [⟨false, 0, 0⟩, ⟨false, 0, 0⟩, ⟨false, 0, 0⟩]] : cache_t),
      (∀ l ∈ cs, l.valid = true → l.lru < 3) ∧
      (∀ l ∈ cs, l.valid = true → ∀ u, u < l.lru → ∃ l1 ∈ cs, l1.valid = true ∧ l1.lru = u) ∧
      ((∃ l ∈ cs, l.valid = true) →
        ∃ m, m < 3 ∧ ∀ u, (∃ l ∈ cs, l.valid = true ∧ l.lru = u) ↔ u ≤ m) :=
  ⟨⟨[0, 4, 8], by decide⟩,
    lru_markers_bounded_without_gaps ⟨1, 1, 3⟩ ⟨[[⟨true, 0, 1⟩, ⟨true, 1, 1⟩, ⟨true, 2, 0⟩],
      [⟨false, 0, 0⟩, ⟨false, 0, 0⟩, ⟨false, 0, 0⟩]], 1, 3, 0, 0⟩ ⟨[0, 4, 8], by decide⟩⟩

/-! ## Hits -/

/-- C17: in a reachable state, when a valid line of the selected set holds the
tag, `accessData` succeeds; `hit_count` goes up by one, `miss_count`,
`eviction_count` and the mask are unchanged; every line of the selected set
keeps its valid flag and its tag, and every other set is unchanged. -/
theorem accessData_hit_frame (c : Config) (st : State) (addr : Nat) (cache_set : cache_set_t)
    (hreach : Reachable c st)
    (hset : st.cache[setIndexOf c st.set_index_mask addr]? = some cache_set)
    (hheld : ∃ l ∈ cache_set, l.valid = true ∧ l.tag = tagOf c addr) :
    ∃ (st1 : State) (new_set : cache_set_t),
      accessData c st addr = some st1 ∧
      st1.hit_count = st.hit_count + 1 ∧
      st1.miss_count = st.miss_count ∧
      st1.eviction_count = st.eviction_count ∧
      st1.set_index_mask = st.set_index_mask ∧
      st1.cache.length = st.cache.length ∧
      st1.cache[setIndexOf c st.set_index_mask addr]? = some new_set ∧
      new_set.map (fun l => (l.valid, l.tag)) = cache_set.map (fun l => (l.valid, l.tag)) ∧
      (∀ k : Nat, k ≠ setIndexOf c st.set_index_mask addr → st1.cache[k]? = st.cache[k]?) := by
  have hlen : cache_set.length = c.E :=
    hreach.wellShaped.2.1 _ (List.mem_iff_getElem?.2 ⟨_, hset⟩)
  have hidx : setIndexOf c st.set_index_mask addr < st.cache.length :=
    (List.getElem?_eq_some.1 hset).1
  have hacc := accessData_of_set c st addr cache_set hset hlen
  have hflag : (findLoop (tagOf c addr) c.E c.E 0 ⟨cache_set, [], [], false⟩).hit_flag = true := by
    obtain ⟨l, hl, hv, ht⟩ := hheld
    obtain ⟨j, hj⟩ := List.mem_iff_getElem?.1 hl
    have hjlt : j < cache_set.length := (List.getElem?_eq_some.1 hj).1
    exact findLoop_hit_flag _ _ _ 0 _ (by simp only []; omega)
      ⟨j, l, Nat.zero_le _, by omega, hj, hv, ht⟩
  have hres : accessSet c.E (tagOf c addr) cache_set =
      ((findLoop (tagOf c addr) c.E c.E 0 ⟨cache_set, [], [], false⟩).cache_set, 1, 0, 0) := by
    unfold accessSet
    simp only [hflag, if_true]
  have hacc2 : accessData c st addr = some { st with
      cache := st.cache.set (setIndexOf c st.set_index_mask addr)
        (findLoop (tagOf c addr) c.E c.E 0 ⟨cache_set, [], [], false⟩).cache_set
      hit_count := st.hit_count + 1
      miss_count := st.miss_count + 0
      eviction_count := st.eviction_count + 0 } := by
    rw [hacc, hres]
  refine ⟨_, (findLoop (tagOf c addr) c.E c.E 0 ⟨cache_set, [], [], false⟩).cache_set, hacc2,
    rfl, rfl, rfl, rfl, by simp, by simp [List.getElem?_set, hidx], ?_, ?_⟩
  · exact findLoop_map (fun l => (l.valid, l.tag)) (fun _ _ => rfl) _ _ _ _ _
  · intro k hk
    simp only []
    rw [List.getElem?_set_ne (fun e => hk e.symm)]

/-- Witness for C17: `s = 1, b = 1, E = 2` after loads of 0 and 4; the access
to address 0 finds tag 0 in line 0 of set 0. -/
theorem accessData_hit_frame_witness :
    Reachable ⟨1, 1, 2⟩
      ⟨[[⟨true, 0, 1⟩, ⟨true, 1, 0⟩], [⟨false, 0, 0⟩, ⟨false, 0, 0⟩]], 1, 2, 0, 0⟩ ∧
    ∃ (st1 : State) (new_set : cache_set_t),
      accessData ⟨1, 1, 2⟩
        ⟨[[⟨true, 0, 1⟩, ⟨true, 1, 0⟩], [⟨false, 0, 0⟩, ⟨false, 0, 0⟩]], 1, 2, 0, 0⟩ 0 =
          some st1 ∧
      st1.hit_count = 0 + 1 ∧
      st1.miss_count = 2 ∧
      st1.eviction_count = 0 ∧
      st1.set_index_mask = 1 ∧
      st1.cache.length = 2 ∧
      st1.cache[setIndexOf ⟨1, 1, 2⟩ 1 0]? = some new_set ∧
      new_set.map (fun l => (l.valid, l.tag)) =
        [(⟨true, 0, 1⟩ : cache_line_t), ⟨true, 1, 0⟩].map (fun l => (l.valid, l.tag)) ∧
      (∀ k : Nat, k ≠ setIndexOf ⟨1, 1, 2⟩ 1 0 →
        st1.cache[k]? =
          ([[⟨true, 0, 1⟩, ⟨true, 1, 0⟩], [⟨false, 0, 0⟩, ⟨false, 0, 0⟩]] : cache_t)[k]?) :=
  ⟨⟨[0, 4], by decide⟩,
    accessData_hit_frame ⟨1, 1, 2⟩
      ⟨[[⟨true, 0, 1⟩, ⟨true, 1, 0⟩], [⟨false, 0, 0⟩, ⟨false, 0, 0⟩]], 1, 2, 0, 0⟩ 0
      [⟨true, 0, 1⟩, ⟨true, 1, 0⟩] ⟨[0, 4], by decide⟩ (by decide) (by decide)⟩

/-! ## Valid lines -/

theorem valid_of_map_eq (a b : cache_set_t)
    (h : a.map (fun l => l.valid) = b.map (fun l => l.valid)) (j : Nat) (l : cache_line_t)
    (hj : b[j]? = some l) (hv : l.valid = true) :
    ∃ l1, a[j]? = some l1 ∧ l1.valid = true := by
  have h1 : (a.map (fun l => l.valid))[j]? = (b.map (fun l => l.valid))[j]? := by rw [h]
  rw [List.getElem?_map, List.getElem?_map, hj] at h1
  cases ha : a[j]? with
  | none => simp [ha] at h1
  | some l1 =>
    simp only [ha, Option.map_some', Option.some.injEq] at h1
    exact ⟨l1, rfl, by rw [h1]; exact hv⟩

/-- No path of `accessData` turns a valid line of the selected set invalid. -/
theorem accessSet_valid_mono (E tag : Nat) (cs : cache_set_t) (j : Nat) (l : cache_line_t)
    (hj : cs[j]? = some l) (hv : l.valid = true) :
    ∃ l1, (accessSet E tag cs).1[j]? = some l1 ∧ l1.valid = true := by
  have hfind := findLoop_map (fun l => l.valid) (fun _ _ => rfl) tag E E 0 ⟨cs, [], [], false⟩
  unfold accessSet
  simp only []
  split
  · exact valid_of_map_eq _ cs hfind j l hj hv
  · split
    · rename_i p rest hfree
      simp only []
      have harr := arrRefreshLRU_map (fun l => l.valid) (fun _ _ => rfl)
        (findLoop tag E E 0 ⟨cs, [], [], false⟩).cache_set
        (findLoop tag E E 0 ⟨cs, [], [], false⟩).cache_valid_subset 0
        (findLoop tag E E 0 ⟨cs, [], [], false⟩).cache_valid_subset.length 0
      obtain ⟨l1, hl1, hl1v⟩ := valid_of_map_eq _ cs (harr.trans hfind) j l hj hv
      rw [modifyLine_getElem?]
      by_cases hpj : p = j
      · exact ⟨installLine tag l1, by simp [hpj, hl1], rfl⟩
      · exact ⟨l1, by simp [hpj, hl1], hl1v⟩
    · have hev := evictLoop_map (fun l => l.valid) (fun _ _ _ => rfl) (fun _ _ => rfl) tag E E 0
        (findLoop tag E E 0 ⟨cs, [], [], false⟩).cache_set
      exact valid_of_map_eq _ cs (hev.trans hfind) j l hj hv

/-- C14: a fresh cache has only invalid lines; in every reachable state every
set has exactly `E` lines, at most `E` of them valid; and an `accessData` call
keeps the number of sets and leaves every valid line valid. -/
theorem valid_lines_at_most_E (c : Config) (st : State) (hreach : Reachable c st) :
    (∀ cs ∈ (initCache c).cache, ∀ l ∈ cs, l.valid = false) ∧
    (∀ cs ∈ st.cache, cs.length = c.E ∧ (cs.filter (fun l => l.valid)).length ≤ c.E) ∧
    (∀ (addr : Nat) (st1 : State), accessData c st addr = some st1 →
      st1.cache.length = st.cache.length ∧
      ∀ (k j : Nat) (cs : cache_set_t) (l : cache_line_t),
        st.cache[k]? = some cs → cs[j]? = some l → l.valid = true →
        ∃ (cs1 : cache_set_t) (l1 : cache_line_t),
          st1.cache[k]? = some cs1 ∧ cs1[j]? = some l1 ∧ l1.valid = true) := by
  refine ⟨?_, ?_, ?_⟩
  · intro cs hcs l hl
    simp only [initCache] at hcs
    rw [List.eq_of_mem_replicate hcs] at hl
    rw [List.eq_of_mem_replicate hl]
  · intro cs hcs
    have hlen := hreach.wellShaped.2.1 cs hcs
    exact ⟨hlen, hlen ▸ List.length_filter_le _ _⟩
  · intro addr st1 hacc
    obtain ⟨cs0, hset, hlen, rfl⟩ := accessData_eq_some c st st1 addr hacc
    refine ⟨by simp, ?_⟩
    intro k j cs l hk hj hv
    simp only []
    by_cases hki : setIndexOf c st.set_index_mask addr = k
    · subst hki
      rw [hset] at hk
      injection hk with hk
      subst hk
      have hidx : setIndexOf c st.set_index_mask addr < st.cache.length :=
        (List.getElem?_eq_some.1 hset).1
      obtain ⟨l1, hl1, hl1v⟩ := accessSet_valid_mono c.E (tagOf c addr) cs0 j l hj hv
      exact ⟨_, l1, by simp [List.getElem?_set, hidx], hl1, hl1v⟩
    · exact ⟨cs, l, by rw [List.getElem?_set_ne hki]; exact hk, hj, hv⟩

/-- Witness for C14: `s = 1, b = 1, E = 2` after loads of 0, 4, 8. -/
theorem valid_lines_at_most_E_witness :
    Reachable ⟨1, 1, 2⟩
      ⟨[[⟨true, 2, 1⟩, ⟨true, 2, 0⟩], [⟨false, 0, 0⟩, ⟨false, 0, 0⟩]], 1, 3, 0, 1⟩ ∧
    (∀ cs ∈ (initCache ⟨1, 1, 2⟩).cache, ∀ l ∈ cs, l.valid = false) ∧
    (∀ cs ∈ ([[⟨true, 2, 1⟩, ⟨true, 2, 0⟩], [⟨false, 0, 0⟩, ⟨false, 0, 0⟩]] : cache_t),
      cs.length = 2 ∧ (cs.filter (fun l => l.valid)).length ≤ 2) ∧
    (∀ (addr : Nat) (st1 : State),
      accessData ⟨1, 1, 2⟩
        ⟨[[⟨true, 2, 1⟩, ⟨true, 2, 0⟩], [⟨false, 0, 0⟩, ⟨false, 0, 0⟩]], 1, 3, 0, 1⟩ addr =
          some st1 →
      st1.cache.length = 2 ∧
      ∀ (k j : Nat) (cs : cache_set_t) (l : cache_line_t),
        ([[⟨true, 2, 1⟩, ⟨true, 2, 0⟩], [⟨false, 0, 0⟩, ⟨false, 0, 0⟩]] : cache_t)[k]? =
          some cs → cs[j]? = some l → l.valid = true →
        ∃ (cs1 : cache_set_t) (l1 : cache_line_t),
          st1.cache[k]? = some cs1 ∧ cs1[j]? = some l1 ∧ l1.valid = true) :=
  ⟨⟨[0, 4, 8], by decide⟩,
    valid_lines_at_most_E ⟨1, 1, 2⟩
      ⟨[[⟨true, 2, 1⟩, ⟨true, 2, 0⟩], [⟨false, 0, 0⟩, ⟨false, 0, 0⟩]], 1, 3, 0, 1⟩
      ⟨[0, 4, 8], by decide⟩⟩

/-! ## Counters -/

/-- Whatever the state, an `accessData` call that is defined changes the
counters in exactly one of three ways: hit, miss, miss with eviction. -/
theorem accessData_outcome (c : Config) (st st1 : State) (addr : Nat)
    (h : accessData c st addr = some st1) :
    (st1.hit_count = st.hit_count + 1 ∧ st1.miss_count = st.miss_count ∧
        st1.eviction_count = st.eviction_count) ∨
    (st1.hit_count = st.hit_count ∧ st1.miss_count = st.miss_count + 1 ∧
        st1.eviction_count = st.eviction_count) ∨
    (st1.hit_count = st.hit_count ∧ st1.miss_count = st.miss_count + 1 ∧
        st1.eviction_count = st.eviction_count + 1) := by
  obtain ⟨cs, _, _, rfl⟩ := accessData_eq_some c st st1 addr h
  rcases accessSet_outcome c.E (tagOf c addr) cs with ho | ho | ho
  · exact Or.inl (by simp [ho])
  · exact Or.inr (Or.inl (by simp [ho]))
  · exact Or.inr (Or.inr (by simp [ho]))

/-- For `s ≤ 30`, `accessData` is defined in every state that has the shape of
the cache. -/
theorem accessData_defined (c : Config) (st : State) (addr : Nat)
    (hs : c.s ≤ 30) (hshape : WellShaped c st) :
    ∃ st1, accessData c st addr = some st1 ∧ WellShaped c st1 := by
  obtain ⟨_, hlt⟩ := setIndexOf_small_s c st addr hs hshape
  have hset : st.cache[setIndexOf c st.set_index_mask addr]? =
      some st.cache[setIndexOf c st.set_index_mask addr] := List.getElem?_eq_getElem hlt
  have hlen := hshape.2.1 _ (List.getElem_mem hlt)
  have hacc := accessData_of_set c st addr _ hset hlen
  exact ⟨_, hacc, accessData_wellShaped c st _ addr hshape hacc⟩

/-- From `s = 31` on a state that has the shape of the cache has no set, and
`accessData` is undefined there whatever the address. -/
theorem accessData_undefined_large_s (c : Config) (st : State) (addr : Nat)
    (hs : 31 ≤ c.s) (hshape : WellShaped c st) :
    st.cache = [] ∧ accessData c st addr = none := by
  have h0 : st.cache.length = 0 := by rw [hshape.1, numSets_large_s c hs]
  refine ⟨List.length_eq_zero.1 h0, accessData_eq_none_of_le c st addr ?_⟩
  rw [h0]
  exact Nat.zero_le _

theorem replayRecord_counts (c : Config) (st : State) (r : AccessRecord)
    (hs : c.s ≤ 30) (hshape : WellShaped c st) :
    ∃ st1, replayRecord c st r = some st1 ∧ WellShaped c st1 ∧
      st1.hit_count + st1.miss_count =
        st.hit_count + st.miss_count + (if r.op = Op.M then 2 else 1) ∧
      st1.eviction_count + st.miss_count ≤ st1.miss_count + st.eviction_count := by
  obtain ⟨st1, h1, hs1⟩ := accessData_defined c st r.addr hs hshape
  have o1 := accessData_outcome c st st1 r.addr h1
  by_cases hM : r.op = Op.M
  · obtain ⟨st2, h2, hs2⟩ := accessData_defined c st1 r.addr hs hs1
    have o2 := accessData_outcome c st1 st2 r.addr h2
    refine ⟨st2, by simp [replayRecord, h1, hM, h2], hs2, ?_, ?_⟩
    · simp only [hM, if_true]
      omega
    · omega
  · refine ⟨st1, by simp [replayRecord, h1, hM], hs1, ?_, ?_⟩
    · simp only [hM, if_false]
      omega
    · omega

theorem replayRecords_counts (c : Config) (hs : c.s ≤ 30) :
    ∀ (trace : List AccessRecord) (st : State), WellShaped c st →
      ∃ st1, replayRecords c st trace = some st1 ∧
        st1.hit_count + st1.miss_count =
          st.hit_count + st.miss_count +
            (trace.countP (fun r => r.op = Op.L) + trace.countP (fun r => r.op = Op.S) +
              2 * trace.countP (fun r => r.op = Op.M)) ∧
        st1.eviction_count + st.miss_count ≤ st1.miss_count + st.eviction_count := by
  intro trace
  induction trace with
  | nil =>
    intro st _
    exact ⟨st, rfl, by simp, by omega⟩
  | cons r rest ih =>
    intro st hshape
    obtain ⟨st1, h1, hs1, e1, e2⟩ := replayRecord_counts c st r hs hshape
    obtain ⟨st2, h2, e3, e4⟩ := ih st1 hs1
    refine ⟨st2, by simp [replayRecords, h1, h2], ?_, by omega⟩
    rw [e3, e1]
    cases hop : r.op <;> simp [List.countP_cons, hop] <;> omega

/-- Outcomes and totals for `s ≤ 30`, where the array of sets has its `2^s`
sets: every `accessData` call in a reachable state is defined and changes the
counters in exactly one of three ways (hit: `hit_count + 1` only; miss:
`miss_count + 1` only; miss with eviction: `miss_count + 1` and
`eviction_count + 1`); the replay of any finite trace from a fresh cache ends
with `hit_count + miss_count = #L + #S + 2 * #M` and
`eviction_count ≤ miss_count`; and when the trace makes fewer than `2^31`
accesses the three totals stay below `2^31`, the range in which the `int`
counters of the program hold them. -/
theorem replay_totals_small_s (c : Config) (hs : c.s ≤ 30) :
    (∀ (st : State) (addr : Nat), Reachable c st →
      ∃ st1, accessData c st addr = some st1 ∧
        ((st1.hit_count = st.hit_count + 1 ∧ st1.miss_count = st.miss_count ∧
            st1.eviction_count = st.eviction_count) ∨
         (st1.hit_count = st.hit_count ∧ st1.miss_count = st.miss_count + 1 ∧
            st1.eviction_count = st.eviction_count) ∨
         (st1.hit_count = st.hit_count ∧ st1.miss_count = st.miss_count + 1 ∧
            st1.eviction_count = st.eviction_count + 1))) ∧
    (∀ trace : List AccessRecord,
      ∃ st, replayRecords c (initCache c) trace = some st ∧
        st.hit_count + st.miss_count =
          trace.countP (fun r => r.op = Op.L) + trace.countP (fun r => r.op = Op.S) +
            2 * trace.countP (fun r => r.op = Op.M) ∧
        st.eviction_count ≤ st.miss_count ∧
        (trace.countP (fun r => r.op = Op.L) + trace.countP (fun r => r.op = Op.S) +
            2 * trace.countP (fun r => r.op = Op.M) < 2 ^ 31 →
          st.hit_count < 2 ^ 31 ∧ st.miss_count < 2 ^ 31 ∧ st.eviction_count < 2 ^ 31)) := by
  constructor
  · intro st addr hreach
    obtain ⟨st1, h1, _⟩ := accessData_defined c st addr hs hreach.wellShaped
    exact ⟨st1, h1, accessData_outcome c st st1 addr h1⟩
  · intro trace
    obtain ⟨st, h1, e1, e2⟩ := replayRecords_counts c hs trace (initCache c)
      (initCache_wellShaped c)
    have e3 : st.hit_count + st.miss_count =
        trace.countP (fun r => r.op = Op.L) + trace.countP (fun r => r.op = Op.S) +
          2 * trace.countP (fun r => r.op = Op.M) := by
      rw [e1]
      simp [initCache]
    have e4 : st.eviction_count ≤ st.miss_count := by
      simp only [initCache] at e2
      omega
    refine ⟨st, h1, e3, e4, ?_⟩
    intro hlt
    omega

/-- The totals at `s = 1, b = 1, E = 2`, with the replay of `L 0`, `M 4`,
`S 8`. -/
theorem replay_totals_small_s_instance :
    (replayRecords ⟨1, 1, 2⟩ (initCache ⟨1, 1, 2⟩)
      [⟨Op.L, 0⟩, ⟨Op.M, 4⟩, ⟨Op.S, 8⟩]).map counters = some (1, 3, 1) ∧
    ∀ trace : List AccessRecord,
      ∃ st, replayRecords ⟨1, 1, 2⟩ (initCache ⟨1, 1, 2⟩) trace = some st ∧
        st.hit_count + st.miss_count =
          trace.countP (fun r => r.op = Op.L) + trace.countP (fun r => r.op = Op.S) +
            2 * trace.countP (fun r => r.op = Op.M) ∧
        st.eviction_count ≤ st.miss_count ∧
        (trace.countP (fun r => r.op = Op.L) + trace.countP (fun r => r.op = Op.S) +
            2 * trace.countP (fun r => r.op = Op.M) < 2 ^ 31 →
          st.hit_count < 2 ^ 31 ∧ st.miss_count < 2 ^ 31 ∧ st.eviction_count < 2 ^ 31) :=
  ⟨by decide, (replay_totals_small_s ⟨1, 1, 2⟩ (by decide)).2⟩

/-- C12 (fails where `main` leaves the cache without sets): with
`s = 54, b = 1, E = 1` the fresh cache is a reachable state and has no set.
`accessData(2^55)` indexes the array of sets at `2^54`, outside of it: the
call is undefined, so it resolves to none of hit, miss, miss with eviction,
and the replay of the one-line trace ` L 80000000000000,1` (the address is
`2^55`) ends with no counters at all. With `s = 31` (where the mask is the exact `2^31 - 1`) the
same happens for the address 0. -/
theorem access_unresolved_at_54 :
    Reachable ⟨54, 1, 1⟩ (initCache ⟨54, 1, 1⟩) ∧
    (initCache ⟨54, 1, 1⟩).cache = [] ∧
    setIndexOf ⟨54, 1, 1⟩ (initCache ⟨54, 1, 1⟩).set_index_mask (2 ^ 55) = 2 ^ 54 ∧
    accessData ⟨54, 1, 1⟩ (initCache ⟨54, 1, 1⟩) (2 ^ 55) = none ∧
    replayRecords ⟨54, 1, 1⟩ (initCache ⟨54, 1, 1⟩) [⟨Op.L, 2 ^ 55⟩] = none ∧
    lineAccesses " L 80000000000000,1\n".toList = some [2 ^ 55] ∧
    replayTrace ⟨54, 1, 1⟩ (initCache ⟨54, 1, 1⟩) [" L 80000000000000,1\n".toList] = none ∧
    (initCache ⟨31, 1, 1⟩).set_index_mask = 2 ^ 31 - 1 ∧
    accessData ⟨31, 1, 1⟩ (initCache ⟨31, 1, 1⟩) 0 = none ∧
    replayRecords ⟨31, 1, 1⟩ (initCache ⟨31, 1, 1⟩) [⟨Op.L, 0⟩] = none := by
  refine ⟨⟨[], rfl⟩, by decide, by decide, by decide, by decide, by decide, by decide,
    by decide, by decide, by decide⟩

/-! ## Hexadecimal addresses -/

theorem digitBits_lowerHex (ch : Char) (h : isLowerHex ch) :
    digitBits ch = hexDigitValue ch ∧ hexDigitValue ch < 16 := by
  unfold isLowerHex at h
  unfold digitBits hexDigitValue
  have h0 : '0'.toNat = 48 := by decide
  have h9 : '9'.toNat = 57 := by decide
  have ha : 'a'.toNat = 97 := by decide
  have hf : 'f'.toNat = 102 := by decide
  rw [h0, h9, ha, hf] at h ⊢
  by_cases hd : 48 ≤ ch.toNat ∧ ch.toNat ≤ 57
  · simp only [hd, and_self, if_true]
    exact ⟨trivial, by omega⟩
  · have hl : 97 ≤ ch.toNat ∧ ch.toNat ≤ 102 := by
      rcases h with h | h
      · exact absurd h hd
      · exact h
    simp only [hd, if_false, hl, and_self, if_true]
    constructor
    · omega
    · omega

theorem shift_or_digit (a d : Nat) (ha : a < 2 ^ 60) (hd : d < 16) :
    ((a <<< 4) % ULL) ||| d = 16 * a + d := by
  have h1 : a <<< 4 = 2 ^ 4 * a := by rw [Nat.shiftLeft_eq, Nat.mul_comm]
  have h2 : 2 ^ 4 * a < ULL := by unfold ULL; omega
  rw [h1, Nat.mod_eq_of_lt h2, ← Nat.mul_add_lt_is_or (by omega) a]

theorem parseAddress_append (xs : List Char) (x : Char) :
    parseAddress (xs ++ [x]) = ((parseAddress xs <<< 4) % ULL) ||| digitBits x := by
  simp [parseAddress, List.foldl_append]

theorem hexValue_append (xs : List Char) (x : Char) :
    hexValue (xs ++ [x]) = 16 * hexValue xs + hexDigitValue x := by
  simp [hexValue, Nat.ofDigits_cons, Nat.add_comm]

theorem hexValue_lt (str : List Char) (h : ∀ ch ∈ str, isLowerHex ch) :
    hexValue str < 16 ^ str.length := by
  have hlt := @Nat.ofDigits_lt_base_pow_length 16 (str.reverse.map hexDigitValue) (by decide)
    (by
      intro x hx
      rw [List.mem_map] at hx
      obtain ⟨ch, hch, rfl⟩ := hx
      exact (digitBits_lowerHex ch (h ch (List.mem_reverse.1 hch))).2)
  simpa [hexValue] using hlt

theorem parseAddress_eq_hexValue_aux (str : List Char) :
    str.length ≤ 16 → (∀ ch ∈ str, isLowerHex ch) → parseAddress str = hexValue str := by
  induction str using List.reverseRecOn with
  | nil => intro _ _; rfl
  | append_singleton xs x ih =>
    intro hlen hall
    have hlen2 : xs.length ≤ 15 := by simpa using hlen
    have hall2 : ∀ ch ∈ xs, isLowerHex ch := fun ch hch => hall ch (by simp [hch])
    have hx := digitBits_lowerHex x (hall x (by simp))
    have hlt : hexValue xs < 16 ^ xs.length := hexValue_lt xs hall2
    have hpow : 16 ^ xs.length ≤ 16 ^ 15 := Nat.pow_le_pow_right (by decide) hlen2
    have hb : hexValue xs < 2 ^ 60 := by
      have h16 : (16 : Nat) ^ 15 = 2 ^ 60 := by norm_num
      omega
    rw [parseAddress_append, hexValue_append, ih (by omega) hall2, hx.1,
      shift_or_digit _ _ hb hx.2]

/-- C19: for a string of at most 16 characters from `'0'..'9'` and `'a'..'f'`
the string-to-integer loop of `replayTrace` yields the number that the string
denotes in base 16, and that number is an unsigned 64-bit value. -/
theorem parseAddress_eq_hexValue (str : List Char) (hlen : str.length ≤ 16)
    (hall : ∀ ch ∈ str, isLowerHex ch) :
    parseAddress str = hexValue str ∧ parseAddress str < 2 ^ 64 := by
  have h1 := parseAddress_eq_hexValue_aux str hlen hall
  refine ⟨h1, ?_⟩
  rw [h1]
  have hlt := hexValue_lt str hall
  have hpow : 16 ^ str.length ≤ 16 ^ 16 := Nat.pow_le_pow_right (by decide) hlen
  have h16 : (16 : Nat) ^ 16 = 2 ^ 64 := by norm_num
  omega

/-- Witness for C19: the address `7ff000398` of a Valgrind trace. -/
theorem parseAddress_eq_hexValue_witness :
    ("7ff000398".toList.length ≤ 16 ∧ ∀ ch ∈ "7ff000398".toList, isLowerHex ch) ∧
    hexValue "7ff000398".toList = 0x7ff000398 ∧
    parseAddress "7ff000398".toList = hexValue "7ff000398".toList ∧
    parseAddress "7ff000398".toList < 2 ^ 64 :=
  ⟨⟨by decide, by decide⟩, by decide,
    parseAddress_eq_hexValue "7ff000398".toList (by decide) (by decide)⟩

/-! ## Trace lines without an operation -/

/-- C16: for a buffer that contains none of the characters `'M'`, `'L'`, `'S'`,
`replayTrace` makes no `accessData` call: the state (cache and counters) after
the line is the state before it, and the rest of the trace is replayed from
that same state. -/
theorem replayLine_without_operation (buf : List Char)
    (h : ∀ ch ∈ buf, ch ≠ 'M' ∧ ch ≠ 'L' ∧ ch ≠ 'S') :
    lineAccesses buf = some [] ∧
    ∀ (c : Config) (st : State), replayLine c st buf = some st ∧
      ∀ rest : List (List Char), replayTrace c st (buf :: rest) = replayTrace c st rest := by
  have hdrop : buf.dropWhile (fun ch => !(OPERATIONS.contains ch)) = [] := by
    rw [List.dropWhile_eq_nil_iff]
    intro ch hch
    obtain ⟨h1, h2, h3⟩ := h ch hch
    simp [OPERATIONS, h1, h2, h3]
  have hacc : lineAccesses buf = some [] := by
    unfold lineAccesses
    rw [hdrop]
  refine ⟨hacc, ?_⟩
  intro c st
  have hline : replayLine c st buf = some st := by
    unfold replayLine
    rw [hacc]
    rfl
  refine ⟨hline, ?_⟩
  intro rest
  simp [replayTrace, hline]

/-- Witness for C16: the instruction-fetch line `I 0400d7d4,8`. -/
theorem replayLine_without_operation_witness :
    (∀ ch ∈ "I 0400d7d4,8".toList, ch ≠ 'M' ∧ ch ≠ 'L' ∧ ch ≠ 'S') ∧
    lineAccesses "I 0400d7d4,8".toList = some [] ∧
    ∀ (c : Config) (st : State), replayLine c st "I 0400d7d4,8".toList = some st ∧
      ∀ rest : List (List Char),
        replayTrace c st ("I 0400d7d4,8".toList :: rest) = replayTrace c st rest :=
  ⟨by decide, replayLine_without_operation "I 0400d7d4,8".toList (by decide)⟩

/-! ## Scenario B -/

/-- C11: with `s = 0, b = 0, E = 2` and a fresh cache, the loads of 0x0, 0x1,
0x0 through `accessData` end with `hit_count = 1`, `miss_count = 2` and
`eviction_count = 0`. -/
theorem scenario_B :
    (replayRecords ⟨0, 0, 2⟩ (initCache ⟨0, 0, 2⟩)
        [⟨Op.L, 0x0⟩, ⟨Op.L, 0x1⟩, ⟨Op.L, 0x0⟩]).map counters = some (1, 2, 0) ∧
    (accessAll ⟨0, 0, 2⟩ (initCache ⟨0, 0, 2⟩) [0x0, 0x1, 0x0]).map counters = some (1, 2, 0) :=
  ⟨by decide, by decide⟩

/-! ## Recombining set index, tag and offset -/

theorem recombine_bits (x s b : Nat) :
    ((x >>> (s + b)) <<< (s + b)) ||| (((x >>> b) &&& (2 ^ s - 1)) <<< b) ||| (x &&& (2 ^ b - 1))
      = x := by
  apply Nat.eq_of_testBit_eq
  intro i
  simp only [Nat.testBit_or, Nat.testBit_shiftLeft, Nat.testBit_shiftRight, Nat.testBit_and,
    Nat.testBit_two_pow_sub_one]
  by_cases h1 : i < b
  · have h2 : ¬ i ≥ s + b := by omega
    have h3 : ¬ i ≥ b := by omega
    simp [h1, h2, h3]
  · have h3 : i ≥ b := by omega
    by_cases h2 : i ≥ s + b
    · have h4 : ¬ i - b < s := by omega
      have e1 : s + b + (i - (s + b)) = i := by omega
      simp [h1, h2, h3, h4, e1]
    · have h4 : i - b < s := by omega
      have e1 : b + (i - b) = i := by omega
      simp [h1, h2, h3, h4, e1]

theorem recombine_high_bits (x s b : Nat) :
    ((x >>> (s + b)) <<< (s + b)) ||| (((x >>> b) &&& (2 ^ s - 1)) <<< b) = (x >>> b) <<< b := by
  apply Nat.eq_of_testBit_eq
  intro i
  simp only [Nat.testBit_or, Nat.testBit_shiftLeft, Nat.testBit_shiftRight, Nat.testBit_and,
    Nat.testBit_two_pow_sub_one]
  by_cases h1 : i < b
  · have h2 : ¬ i ≥ s + b := by omega
    have h3 : ¬ i ≥ b := by omega
    simp [h2, h3]
  · have h3 : i ≥ b := by omega
    by_cases h2 : i ≥ s + b
    · have h4 : ¬ i - b < s := by omega
      have e1 : s + b + (i - (s + b)) = i := by omega
      have e2 : b + (i - b) = i := by omega
      simp [h2, h3, h4, e1, e2]
    · have h4 : i - b < s := by omega
      simp [h2, h3, h4]

/-- Recombination for `s ≤ 53`: with the set index and the tag that
`accessData` computes, `(tag << (s+b)) | (set_index << b) | (addr & (2^b - 1))`
is `addr`, and without the offset bits it is `addr` with its low `b` bits
cleared. -/
theorem address_recombines_small_s (c : Config) (addr : Nat) (hs : c.s ≤ 53) :
    ((tagOf c addr) <<< (c.s + c.b)) |||
        ((setIndexOf c (initCache c).set_index_mask addr) <<< c.b) |||
        (addr &&& (2 ^ c.b - 1)) = addr ∧
    ((tagOf c addr) <<< (c.s + c.b)) |||
        ((setIndexOf c (initCache c).set_index_mask addr) <<< c.b) = (addr >>> c.b) <<< c.b := by
  have hm : (initCache c).set_index_mask = 2 ^ c.s - 1 := initMask_exact _ hs
  rw [hm]
  exact ⟨recombine_bits addr c.s c.b, recombine_high_bits addr c.s c.b⟩

/-- C13 (fails from `s = 54` on): with `s = 54, b = 1` (`s + b < 64`) and the
address 2, `accessData` computes tag 0 and set index 0 (the mask is `2^54`), so
`(tag << (s+b)) | (set_index << b) | (addr & (2^b - 1))` is 0, not 2. -/
theorem address_recombination_fails_at_54 :
    tagOf ⟨54, 1, 1⟩ 2 = 0 ∧
    setIndexOf ⟨54, 1, 1⟩ (initCache ⟨54, 1, 1⟩).set_index_mask 2 = 0 ∧
    ((tagOf ⟨54, 1, 1⟩ 2) <<< (54 + 1)) |||
        ((setIndexOf ⟨54, 1, 1⟩ (initCache ⟨54, 1, 1⟩).set_index_mask 2) <<< 1) |||
        (2 &&& (2 ^ 1 - 1)) = 0 :=
  ⟨by decide, by decide, by decide⟩

/-! ## The argument check of main -/

/-- C15 as stated does not hold: `s = -1` is not a positive integer, but with
`E = 1`, `b = 1` and a trace file the check lets `main` go on; and a rejected
configuration (`s = 0`) exits with status 0, the status of `printUsage`. -/
theorem argCheck_accepts_negative :
    ¬ (0 < (-1 : Int)) ∧
    argCheck (-1) 1 1 (some "yi.trace") = Except.ok () ∧
    argCheck 0 1 1 (some "yi.trace") = Except.error 0 :=
  ⟨by decide, rfl, rfl⟩

/-- C15, amended: the argument check of `main` rejects the configuration
(prints the usage and exits before `initCache` and `replayTrace` run) if and
only if `s`, `E` or `b` is 0 or the trace file is missing. -/
theorem argCheck_rejects_iff (s E b : Int) (trace_file : Option String) :
    ((∃ status, argCheck s E b trace_file = Except.error status) ↔
      (s = 0 ∨ E = 0 ∨ b = 0 ∨ trace_file = none)) ∧
    (argCheck s E b trace_file = Except.ok () ↔
      ¬ (s = 0 ∨ E = 0 ∨ b = 0 ∨ trace_file = none)) := by
  by_cases h : s = 0 ∨ E = 0 ∨ b = 0 ∨ trace_file = none
  · have hval : argCheck s E b trace_file = Except.error 0 := by
      unfold argCheck
      rw [if_pos h]
      rfl
    rw [hval]
    refine ⟨⟨fun _ => h, fun _ => ⟨0, rfl⟩⟩, ⟨?_, fun hc => absurd h hc⟩⟩
    intro hc
    cases hc
  · have hval : argCheck s E b trace_file = Except.ok () := by
      unfold argCheck
      rw [if_neg h]
    rw [hval]
    refine ⟨⟨?_, fun hc => absurd hc h⟩, ⟨fun _ => h, fun _ => rfl⟩⟩
    rintro ⟨_, hc⟩
    cases hc

/-! ## Other sets -/

theorem accessData_set_result (c : Config) (st : State) (addr : Nat) (cs : cache_set_t)
    (hset : st.cache[setIndexOf c st.set_index_mask addr]? = some cs) (hlen : cs.length = c.E) :
    ∃ st1, accessData c st addr = some st1 ∧
      st1.cache[setIndexOf c st.set_index_mask addr]? =
        some (accessSet c.E (tagOf c addr) cs).1 := by
  have hidx : setIndexOf c st.set_index_mask addr < st.cache.length :=
    (List.getElem?_eq_some.1 hset).1
  exact ⟨_, accessData_of_set c st addr cs hset hlen, by simp [List.getElem?_set, hidx]⟩

/-- An `accessData` call changes no line outside the set it selects, the set
with index `(addr >> b) & set_index_mask`; with the exact mask that is the set
with index `(addr >> b) & (2^s - 1)`. -/
theorem accessData_other_sets (c : Config) (st st1 : State) (addr : Nat)
    (h : accessData c st addr = some st1) :
    (∀ k : Nat, k ≠ setIndexOf c st.set_index_mask addr → st1.cache[k]? = st.cache[k]?) ∧
    (st.set_index_mask = 2 ^ c.s - 1 →
      ∀ k : Nat, k ≠ (addr >>> c.b) &&& (2 ^ c.s - 1) → st1.cache[k]? = st.cache[k]?) := by
  obtain ⟨cs, _, _, rfl⟩ := accessData_eq_some c st st1 addr h
  have hframe : ∀ k : Nat, k ≠ setIndexOf c st.set_index_mask addr →
      (st.cache.set (setIndexOf c st.set_index_mask addr)
        (accessSet c.E (tagOf c addr) cs).1)[k]? = st.cache[k]? :=
    fun k hk => List.getElem?_set_ne (fun e => hk e.symm)
  refine ⟨hframe, ?_⟩
  intro hm k hk
  apply hframe
  rw [hm]
  exact hk

/-- C18: let `st` be any state of the configuration `c`: its array of sets has
the `S` sets that `main` computes and its mask is the one that `initCache`
computed, while the contents of the lines are arbitrary. For every address,
an `accessData` call keeps the number of sets and the mask and leaves every
set other than the one with index `(addr >> b) & (2^s - 1)` exactly as it was,
line by line (valid flag, tag and lru marker). The call is defined whenever
`s ≤ 30` and every set has its `E` lines; from `s = 31` on the cache has no
set, hence no line that could change. -/
theorem accessData_changes_no_other_set (c : Config) (st : State) (addr : Nat)
    (hsets : st.cache.length = numSets c)
    (hmask : st.set_index_mask = (initCache c).set_index_mask) :
    (∀ st1 : State, accessData c st addr = some st1 →
      st1.cache.length = st.cache.length ∧ st1.set_index_mask = st.set_index_mask ∧
      ∀ k : Nat, k ≠ (addr >>> c.b) &&& (2 ^ c.s - 1) → st1.cache[k]? = st.cache[k]?) ∧
    (c.s ≤ 30 → (∀ cs ∈ st.cache, cs.length = c.E) →
      ∃ st1 : State, accessData c st addr = some st1) ∧
    (31 ≤ c.s → st.cache = []) := by
  have hmask1 : st.set_index_mask = initMask c.s := hmask
  refine ⟨?_, ?_, ?_⟩
  · intro st1 h
    obtain ⟨cs, hset, _, hst1⟩ := accessData_eq_some c st st1 addr h
    have hidx : setIndexOf c st.set_index_mask addr < numSets c := by
      rw [← hsets]
      exact (List.getElem?_eq_some.1 hset).1
    have hs : c.s ≤ 30 := by
      by_contra hc
      rw [numSets_large_s c (by omega)] at hidx
      exact Nat.not_lt_zero _ hidx
    have hm : st.set_index_mask = 2 ^ c.s - 1 := by
      rw [hmask1, initMask_exact _ (by omega)]
    refine ⟨?_, ?_, (accessData_other_sets c st st1 addr h).2 hm⟩
    · rw [hst1]
      simp
    · rw [hst1]
  · intro hs hlines
    obtain ⟨st1, h1, _⟩ := accessData_defined c st addr hs ⟨hsets, hlines, hmask1⟩
    exact ⟨st1, h1⟩
  · intro hs
    apply List.length_eq_zero.1
    rw [hsets, numSets_large_s c hs]

/-- Witness for C18: `s = 1, b = 1, E = 2` in the state after loads of 0 and
4 (both in set 0); the access to address 2 goes to set 1, whose first line
becomes valid, and set 0 keeps its two lines. -/
theorem accessData_changes_no_other_set_witness :
    (([[⟨true, 0, 1⟩, ⟨true, 1, 0⟩], [⟨false, 0, 0⟩, ⟨false, 0, 0⟩]] : cache_t).length =
        numSets ⟨1, 1, 2⟩ ∧
      1 = (initCache ⟨1, 1, 2⟩).set_index_mask) ∧
    (2 >>> 1) &&& (2 ^ 1 - 1) = 1 ∧
    accessData ⟨1, 1, 2⟩
        ⟨[[⟨true, 0, 1⟩, ⟨true, 1, 0⟩], [⟨false, 0, 0⟩, ⟨false, 0, 0⟩]], 1, 2, 0, 0⟩ 2 =
      some ⟨[[⟨true, 0, 1⟩, ⟨true, 1, 0⟩], [⟨true, 0, 0⟩, ⟨false, 0, 0⟩]], 1, 3, 0, 0⟩ ∧
    ∀ st1 : State,
      accessData ⟨1, 1, 2⟩
          ⟨[[⟨true, 0, 1⟩, ⟨true, 1, 0⟩], [⟨false, 0, 0⟩, ⟨false, 0, 0⟩]], 1, 2, 0, 0⟩ 2 =
        some st1 →
      st1.cache.length = 2 ∧ st1.set_index_mask = 1 ∧
      ∀ k : Nat, k ≠ (2 >>> 1) &&& (2 ^ 1 - 1) →
        st1.cache[k]? =
          ([[⟨true, 0, 1⟩, ⟨true, 1, 0⟩], [⟨false, 0, 0⟩, ⟨false, 0, 0⟩]] : cache_t)[k]? :=
  ⟨⟨by decide, by decide⟩, by decide, by decide,
    (accessData_changes_no_other_set ⟨1, 1, 2⟩
      ⟨[[⟨true, 0, 1⟩, ⟨true, 1, 0⟩], [⟨false, 0, 0⟩, ⟨false, 0, 0⟩]], 1, 2, 0, 0⟩ 2
      (by decide) (by decide)).1⟩

end Csim
